import Mathlib

/-!
# The gomethods step runner (`driver/gomethods/gomethods_migrator.go`)

A shallow embedding of the migrator of the gomethods driver.

* Go strings are Lean `String`s, read as sequences of code points (so the
  strings covered are the valid UTF-8 ones, on which splitting at a newline,
  trimming white space and matching an ASCII affix give the same result by bytes
  and by code points); the library functions of package `strings` that the
  source calls are defined below from their documented behaviour.
* A Go `error` is an `Option GoError` (`none` is `nil`).
* A slice that a function changes in place is a list passed in and returned.
* A function value printed by `fmt` is known by its code pointer alone, which is
  a parameter of the text.
* The `MigrationMethodInvoker` interface is a pair of functions over an explicit
  catalog state `σ`: both `IsValid` and `Invoke` may change that state.
* Everything the migrator does to the outside world is recorded, in order, in a
  trace of events: every `IsValid` call, every `Invoke` call (each with its
  result) and every message sent on the notification channel.  Sends are taken
  to complete (the consumer drains the channel).
-/

namespace Gomethods

/-! ## Errors -/

/-- Go `error` values met by the migrator: the three error types the package
declares, and `other` for any error value of another type (an I/O error, or
whatever an invoked operation returns). -/
inductive GoError where
  | MissingMethodError (name : String)
  | WrongMethodSignatureError (name : String)
  | MethodInvocationFailedError (MethodName : String) (Err : GoError)
  | other (msg : String)
  deriving DecidableEq, Repr

/-! ## Package `strings` and `unicode` -/

/-- Go `unicode.IsSpace`: the Latin-1 spaces `\t \n \v \f \r`, space, U+0085,
U+00A0, and the other code points with the White_Space property. -/
def IsSpace (c : Char) : Bool :=
  let n := c.toNat
  (9 ≤ n && n ≤ 13) || n == 32 || n == 0x85 || n == 0xA0 || n == 0x1680 ||
  (0x2000 ≤ n && n ≤ 0x200A) || n == 0x2028 || n == 0x2029 || n == 0x202F ||
  n == 0x205F || n == 0x3000

/-- Go `strings.TrimSpace`: all leading and trailing white space removed. -/
def TrimSpace (s : String) : String :=
  ⟨((s.data.dropWhile IsSpace).reverse.dropWhile IsSpace).reverse⟩

/-- Go `strings.HasPrefix`:
`len(s) >= len(pre) && s[:len(pre)] == pre`. -/
def HasPrefix (s pre : String) : Bool :=
  decide (s.data.length ≥ pre.data.length) && (s.data.take pre.data.length == pre.data)

/-- Go `strings.HasSuffix`:
`len(s) >= len(suffix) && s[len(s)-len(suffix):] == suffix`. -/
def HasSuffix (s suffix : String) : Bool :=
  decide (s.data.length ≥ suffix.data.length) &&
    (s.data.drop (s.data.length - suffix.data.length) == suffix.data)

/-- Go `strings.TrimSuffix`: `s[:len(s)-len(suffix)]` when `s` has the suffix,
`s` unchanged otherwise. -/
def TrimSuffix (s suffix : String) : String :=
  if HasSuffix s suffix then ⟨s.data.take (s.data.length - suffix.data.length)⟩ else s

/-- Splitting a list of characters at every occurrence of `sep`. -/
def splitChars (sep : Char) : List Char → List (List Char)
  | [] => [[]]
  | c :: cs =>
    if c = sep then [] :: splitChars sep cs
    else
      match splitChars sep cs with
      | [] => [[c]]
      | l :: ls => (c :: l) :: ls

/-- Go `strings.Split(s, sep)` for a separator of one character: the substrings
between the separators, `[s]` when `s` holds no separator. -/
def Split (s : String) (sep : Char) : List String :=
  (splitChars sep s.data).map String.mk

/-! ## The migrator's world -/

/-- A message on the notification channel `pipe chan interface{}`: a step name
or an error value. -/
inductive Msg where
  | name (methodName : String)
  | error (err : GoError)
  deriving DecidableEq, Repr

/-- One observable action of a run, in the order the code performs them. -/
inductive Event where
  | isValid (methodName : String) (result : Bool)
  | invoke (methodName : String) (result : Option GoError)
  | send (msg : Msg)
  deriving DecidableEq, Repr

/-- The state a run threads through: the catalog's state and the trace of
events so far (oldest first). -/
structure World (σ : Type) where
  st : σ
  trace : List Event
  deriving DecidableEq, Repr

/-- Interface `MigrationMethodInvoker`. -/
structure MigrationMethodInvoker (σ : Type) where
  IsValid : σ → String → Bool × σ
  Invoke : σ → String → Option GoError × σ

/-- Struct `Migrator`. -/
structure Migrator (σ : Type) where
  RollbackOnFailure : Bool
  MethodInvoker : MigrationMethodInvoker σ

/-- The fields of `file.File` the migrator reads. -/
structure File where
  Path : String
  FileName : String
  Content : String
  deriving DecidableEq, Repr

/-- What `os.Open` followed by a `bufio.Scanner` loop yields for a file that
opens: the lines `scanner.Text()` returned before `scanner.Scan()` gave false,
and the scanner's error if it stopped on one. -/
structure ScannedFile where
  lines : List String
  scanErr : Option GoError
  deriving DecidableEq, Repr

/-- The filesystem as the migrator sees it: `os.Open(path.Join(dir, name))`
either fails with an error or gives a file to scan. -/
abbrev FileSystem := String → String → Except GoError ScannedFile

/-- The statement `pipe <- msg`. -/
def send {σ : Type} (msg : Msg) (w : World σ) : World σ :=
  { w with trace := w.trace ++ [Event.send msg] }

/-- The call `m.MethodInvoker.IsValid(methodName)`. -/
def callIsValid {σ : Type} (m : Migrator σ) (methodName : String) (w : World σ) :
    Bool × World σ :=
  let r := m.MethodInvoker.IsValid w.st methodName
  (r.1, { st := r.2, trace := w.trace ++ [Event.isValid methodName r.1] })

/-- The call `m.MethodInvoker.Invoke(methodName)`. -/
def callInvoke {σ : Type} (m : Migrator σ) (methodName : String) (w : World σ) :
    Option GoError × World σ :=
  let r := m.MethodInvoker.Invoke w.st methodName
  (r.1, { st := r.2, trace := w.trace ++ [Event.invoke methodName r.1] })

/-! ## The functions of the source -/

/-- Function `getRollbackToMethod`. -/
def getRollbackToMethod (methodName : String) : String :=
  if HasSuffix methodName "_up" then
    TrimSuffix methodName "_up" ++ "_down"
  else if HasSuffix methodName "_down" then
    TrimSuffix methodName "_down" ++ "_up"
  else
    ""

/-- Function `getFileLines`.  The scanner's error is never consulted: the lines
read so far are returned with a nil error. -/
def getFileLines (fs : FileSystem) (file : File) : Except GoError (List String) :=
  if file.Content.data.length = 0 then
    match fs file.Path file.FileName with
    | .error err => .error err
    | .ok opened => .ok opened.lines
  else
    .ok (Split file.Content '\n')

/-- The loop `for _, line := range lines` of `getMigrationMethods`; `methods` is
the slice built so far. -/
def getMigrationMethodsLoop {σ : Type} (m : Migrator σ) :
    List String → List String → World σ → Except GoError (List String) × World σ
  | [], methods, w => (.ok methods, w)
  | line :: rest, methods, w =>
    let line := TrimSpace line
    if line = "" ∨ HasPrefix line "--" = true then
      getMigrationMethodsLoop m rest methods w
    else
      let methodName := line
      let r := callIsValid m methodName w
      if r.1 = false then
        (.error (GoError.MissingMethodError methodName), r.2)
      else
        getMigrationMethodsLoop m rest (methods ++ [methodName]) r.2

/-- Method `Migrator.getMigrationMethods`. -/
def getMigrationMethods {σ : Type} (m : Migrator σ) (fs : FileSystem) (f : File)
    (w : World σ) : Except GoError (List String) × World σ :=
  match getFileLines fs f with
  | .error err => (.error err, w)
  | .ok lines => getMigrationMethodsLoop m lines [] w

/-- The rollback loop `for j := i - 1; j >= 0; j--` of `Migrate`.  The numeric
argument is `j + 1`, so `0` is the exit `j < 0`; `err` is the variable `err` of
the enclosing block, which the loop assigns and the function returns after it.
`methods[j]` is read with a default that is never reached, as `j < i` and `i` is
an index of `methods`. -/
def rollbackLoop {σ : Type} (m : Migrator σ) (methods : List String) :
    Nat → Option GoError → World σ → Option GoError × World σ
  | 0, err, w => (err, w)
  | j + 1, err, w =>
    let rollbackToMethodName := getRollbackToMethod (methods.getD j "")
    if rollbackToMethodName = "" then
      rollbackLoop m methods j err w
    else
      let v := callIsValid m rollbackToMethodName w
      if v.1 = false then
        rollbackLoop m methods j err v.2
      else
        let w1 := send (Msg.name rollbackToMethodName) v.2
        let r := callInvoke m rollbackToMethodName w1
        match r.1 with
        | some e => (some e, send (Msg.error e) r.2)
        | none => rollbackLoop m methods j none r.2

/-- The loop `for i, methodName := range methods` of `Migrate` from index `i`
on; the third argument is `methods[i:]`. -/
def migrateLoop {σ : Type} (m : Migrator σ) (methods : List String) :
    Nat → List String → World σ → Option GoError × World σ
  | _, [], w => (none, w)
  | i, methodName :: rest, w =>
    let w1 := send (Msg.name methodName) w
    let r := callInvoke m methodName w1
    match r.1 with
    | some e =>
      let w2 := send (Msg.error e) r.2
      if m.RollbackOnFailure = false then
        (some e, w2)
      else
        rollbackLoop m methods i (some e) w2
    | none => migrateLoop m methods (i + 1) rest r.2

/-- Method `Migrator.Migrate`: the returned error and the world after the run. -/
def Migrate {σ : Type} (m : Migrator σ) (fs : FileSystem) (f : File) (w : World σ) :
    Option GoError × World σ :=
  match getMigrationMethods m fs f w with
  | (.error err, w1) => (some err, send (Msg.error err) w1)
  | (.ok methods, w1) => migrateLoop m methods 0 methods w1

/-- The assignment `a[i], a[j] = a[j], a[i]`: both right-hand sides are read
before either element is written. -/
def swap (a : List String) (i j : Nat) : List String :=
  (a.set i (a.getD j "")).set j (a.getD i "")

/-- The loop `for i := 0; i < len(a)/2; i++` of `reverseInPlace` from index `i`
on; the first argument bounds the number of iterations left. -/
def reverseInPlaceLoop : Nat → Nat → List String → List String
  | 0, _, a => a
  | fuel + 1, i, a =>
    if i < a.length / 2 then
      let j := a.length - i - 1
      reverseInPlaceLoop fuel (i + 1) (swap a i j)
    else
      a

/-- Function `reverseInPlace`: the contents of the slice after the call.  The
loop runs `len(a)/2` times, which is the bound given to it. -/
def reverseInPlace (a : List String) : List String :=
  reverseInPlaceLoop (a.length / 2) 0 a

/-- Verb `%v` of package `fmt` applied to a function value that is not nil:
`0x` followed by its code pointer in lower-case hexadecimal. -/
def formatFuncValue (addr : Nat) : String :=
  "0x" ++ ⟨Nat.toDigits 16 addr⟩

/-- Method `(*MethodInvocationFailedError).Error`:
`fmt.Sprintf("Method %s returned an error: %v", e.MethodName, e.Error)`.  The
operand of `%v` is the method value `e.Error`, not the field `e.Err`;
`errorAddr` is the code pointer of that method value. -/
def MethodInvocationFailedError.Error (errorAddr : Nat) (MethodName : String)
    (_Err : GoError) : String :=
  "Method " ++ MethodName ++ " returned an error: " ++ formatFuncValue errorAddr

/-- Method `MissingMethodError.Error`. -/
def MissingMethodError.Error (e : String) : String :=
  "Non existing migrate method: " ++ e

/-! ## Reading a trace -/

/-- The messages received on the notification channel, in order. -/
def pipeOf : List Event → List Msg
  | [] => []
  | Event.send msg :: evs => msg :: pipeOf evs
  | _ :: evs => pipeOf evs

/-- The names passed to `Invoke`, in call order. -/
def invokedOf : List Event → List String
  | [] => []
  | Event.invoke n _ :: evs => n :: invokedOf evs
  | _ :: evs => invokedOf evs

/-- The results of the `Invoke` calls, in call order. -/
def invokeResultsOf : List Event → List (Option GoError)
  | [] => []
  | Event.invoke _ r :: evs => r :: invokeResultsOf evs
  | _ :: evs => invokeResultsOf evs

/-- The names passed to `IsValid`, in call order. -/
def isValidCallsOf : List Event → List String
  | [] => []
  | Event.isValid n _ :: evs => n :: isValidCallsOf evs
  | _ :: evs => isValidCallsOf evs

/-- The world of a catalog in state `s` before anything has happened: the
trace is empty. -/
def initial {σ : Type} (s : σ) : World σ := { st := s, trace := [] }

/-! ## Specification-side definitions -/

/-- The step names the specification reads off raw lines: each line trimmed,
kept when the trimmed text is not empty and does not begin with `--`. -/
def stepNames (lines : List String) : List String :=
  (lines.map TrimSpace).filter (fun l => decide (l ≠ "" ∧ ¬ "--".data <+: l.data))

/-- The stem of `s` when `s` is `stem ++ suffix`, by recursion on `s`. -/
def stripSuffix? (suffix : List Char) : List Char → Option (List Char)
  | [] => if [] = suffix then some [] else none
  | c :: cs =>
    if c :: cs = suffix then some []
    else (stripSuffix? suffix cs).map (fun stem => c :: stem)

/-- The reversal algorithm in the specification's words: a name ending in `_up`
gives the name with that suffix removed and `_down` appended; else a name ending
in `_down` gives the name with that suffix removed and `_up` appended; else
there is no compensating name (the empty string). -/
def compensatingNameSpec (s : String) : String :=
  match stripSuffix? "_up".data s.data with
  | some stem => ⟨stem ++ "_down".data⟩
  | none =>
    match stripSuffix? "_down".data s.data with
    | some stem => ⟨stem ++ "_up".data⟩
    | none => ""

/-- The events of invoking each of `names` with success: the name is sent, then
invoked. -/
def okEvents : List String → List Event
  | [] => []
  | n :: ns => Event.send (Msg.name n) :: Event.invoke n none :: okEvents ns

/-- The events of an invocation of `n` that fails with `e`. -/
def failEvents (n : String) (e : GoError) : List Event :=
  [Event.send (Msg.name n), Event.invoke n (some e), Event.send (Msg.error e)]

/-- Every event of `t` is an `IsValid` call. -/
def onlyIsValid (t : List Event) : Prop := ∀ ev ∈ t, ∃ n b, ev = Event.isValid n b

/-- The world `w` with the events `t` placed before its trace. -/
def World.after {σ : Type} (t : List Event) (w : World σ) : World σ :=
  { w with trace := t ++ w.trace }

/-- A result with the events `t` placed before the trace of its world. -/
def shift {α σ : Type} (t : List Event) (r : α × World σ) : α × World σ :=
  (r.1, r.2.after t)

/-- The validation loop of `getMigrationMethods` run on names that are already
trimmed and not skipped (a device for the proofs). -/
def validateNames {σ : Type} (m : Migrator σ) :
    List String → List String → World σ → Except GoError (List String) × World σ
  | [], methods, w => (.ok methods, w)
  | n :: ns, methods, w =>
    let r := callIsValid m n w
    if r.1 = false then
      (.error (GoError.MissingMethodError n), r.2)
    else
      validateNames m ns (methods ++ [n]) r.2

/-- The events of compensating each step of `steps`, in that order, when every
compensating name is checked valid and invoked with success. -/
def compensateEvents : List String → List Event
  | [] => []
  | n :: ns =>
    Event.isValid (getRollbackToMethod n) true ::
    Event.send (Msg.name (getRollbackToMethod n)) ::
    Event.invoke (getRollbackToMethod n) none :: compensateEvents ns

/-- In the trace `t`, a failing `Invoke` call is followed by the send of its
error and by nothing else. -/
def FailEnds (t : List Event) : Prop :=
  ∀ pre post n r, t = pre ++ Event.invoke n (some r) :: post →
    post = [Event.send (Msg.error r)]

/-- In the trace `t`, a failing `Invoke` call that comes after an earlier
failing `Invoke` call is followed by the send of its error and by nothing
else. -/
def SecondFailEnds (t : List Event) : Prop :=
  ∀ pre post n r, t = pre ++ Event.invoke n (some r) :: post →
    (∃ n' e', Event.invoke n' (some e') ∈ pre) →
    post = [Event.send (Msg.error r)]

/-- Joining lists of characters with `sep` between them. -/
def joinChars (sep : Char) : List (List Char) → List Char
  | [] => []
  | [l] => l
  | l :: l' :: ls => l ++ sep :: joinChars sep (l' :: ls)

/-- Go `strings.Join(elems, sep)` for a separator of one character. -/
def Join (elems : List String) (sep : Char) : String :=
  ⟨joinChars sep (elems.map String.data)⟩

/-- The message of an error value as the specification reads it, for the error
values whose message does not depend on this package: `other msg` stands for an
error whose `Error()` is `msg`. -/
def causeMessage : GoError → Option String
  | GoError.other msg => some msg
  | GoError.MissingMethodError name => some (MissingMethodError.Error name)
  | _ => none

/-- The text the specification gives for a failed invocation: the step name
and the message of the underlying cause. -/
def invocationFailedTextSpec (MethodName causeMsg : String) : String :=
  "Method " ++ MethodName ++ " returned an error: " ++ causeMsg

/-- The names passed to `Invoke` up to and including the first call that fails:
the invocations of the forward loop, which returns at its first failure. -/
def forwardInvokedOf : List Event → List String
  | [] => []
  | Event.invoke n none :: evs => n :: forwardInvokedOf evs
  | Event.invoke n (some _) :: _ => [n]
  | _ :: evs => forwardInvokedOf evs

/-- The step names among the messages of the channel, in order. -/
def namesOf : List Msg → List String
  | [] => []
  | Msg.name n :: msgs => n :: namesOf msgs
  | _ :: msgs => namesOf msgs

/-- The channel that mirrors the `Invoke` calls of a trace: for each call, in
order, its name, followed by its error when the call failed. -/
def mirrorOf : List Event → List Msg
  | [] => []
  | Event.invoke n none :: evs => Msg.name n :: mirrorOf evs
  | Event.invoke n (some e) :: evs => Msg.name n :: Msg.error e :: mirrorOf evs
  | _ :: evs => mirrorOf evs

/-- Traces in which every `Invoke` call comes right after the send of its name
and, when it fails, right before the send of its error, and in which nothing
else is sent. -/
inductive Paired : List Event → Prop where
  | nil : Paired []
  | isValid (n : String) (b : Bool) {t : List Event} :
      Paired t → Paired (Event.isValid n b :: t)
  | ok (n : String) {t : List Event} :
      Paired t → Paired (Event.send (Msg.name n) :: Event.invoke n none :: t)
  | fail (n : String) (e : GoError) {t : List Event} :
      Paired t →
      Paired (Event.send (Msg.name n) :: Event.invoke n (some e) ::
        Event.send (Msg.error e) :: t)

/-- The runs of the rollback loop from index `k - 1` down: `RollbackRun m methods
k err r t` says that the loop entered with `err` may return `r` after the events
`t`.  Each constructor is one way through the loop body. -/
inductive RollbackRun {σ : Type} (m : Migrator σ) (methods : List String) :
    Nat → Option GoError → Option GoError → List Event → Prop where
  | done (err : Option GoError) : RollbackRun m methods 0 err err []
  | absent (j : Nat) (err r : Option GoError) (t : List Event) :
      getRollbackToMethod (methods.getD j "") = "" →
      RollbackRun m methods j err r t → RollbackRun m methods (j + 1) err r t
  | invalid (j : Nat) (err r : Option GoError) (t : List Event) :
      getRollbackToMethod (methods.getD j "") ≠ "" →
      (∃ s', (m.MethodInvoker.IsValid s' (getRollbackToMethod (methods.getD j ""))).1 = false) →
      RollbackRun m methods j err r t →
      RollbackRun m methods (j + 1) err r
        (Event.isValid (getRollbackToMethod (methods.getD j "")) false :: t)
  | ok (j : Nat) (err r : Option GoError) (t : List Event) :
      getRollbackToMethod (methods.getD j "") ≠ "" →
      (∃ s', (m.MethodInvoker.IsValid s' (getRollbackToMethod (methods.getD j ""))).1 = true) →
      RollbackRun m methods j none r t →
      RollbackRun m methods (j + 1) err r
        (Event.isValid (getRollbackToMethod (methods.getD j "")) true ::
         Event.send (Msg.name (getRollbackToMethod (methods.getD j ""))) ::
         Event.invoke (getRollbackToMethod (methods.getD j "")) none :: t)
  | fail (j : Nat) (err : Option GoError) (e : GoError) :
      getRollbackToMethod (methods.getD j "") ≠ "" →
      (∃ s', (m.MethodInvoker.IsValid s' (getRollbackToMethod (methods.getD j ""))).1 = true) →
      RollbackRun m methods (j + 1) err (some e)
        [Event.isValid (getRollbackToMethod (methods.getD j "")) true,
         Event.send (Msg.name (getRollbackToMethod (methods.getD j ""))),
         Event.invoke (getRollbackToMethod (methods.getD j "")) (some e),
         Event.send (Msg.error e)]

/-- The compensating names that rollback invokes for `steps`, taken in that
order: the names that exist (are not empty) and that `IsValid` accepts. -/
def compensableNames (valid : String → Bool) (steps : List String) : List String :=
  (steps.map getRollbackToMethod).filter (fun c => decide (c ≠ "") && valid c)

/-- The compensating names that rollback passes to `IsValid` for `steps`, taken
in that order: the names that exist. -/
def presentCompensations (steps : List String) : List String :=
  (steps.map getRollbackToMethod).filter (fun c => decide (c ≠ ""))

/-! ## Fixtures -/

/-- A catalog without state: the names of `known` are valid, and the operations
listed in `bad` fail. -/
def catalog (known bad : List String) : MigrationMethodInvoker Unit where
  IsValid := fun _ n => (decide (n ∈ known), ())
  Invoke := fun _ n =>
    (if n ∈ bad then some (GoError.other (n ++ " failed")) else none, ())

/-- The operations of the fixtures: three steps and their compensations. -/
def abcKnown : List String := ["a_up", "b_up", "c_up", "a_down", "b_down", "c_down"]

/-- A filesystem without files. -/
def noFiles : FileSystem := fun _ _ => .error (GoError.other "no such file")

/-- The in-memory source `a_up`, `b_up`, `c_up`. -/
def abcFile : File := { Path := "", FileName := "", Content := "a_up\nb_up\nc_up" }

/-- A migrator with rollback enabled over the fixture catalog. -/
def rollbackMigrator (bad : List String) : Migrator Unit :=
  { RollbackOnFailure := true, MethodInvoker := catalog abcKnown bad }

/-- A migrator with rollback disabled over the fixture catalog. -/
def plainMigrator (bad : List String) : Migrator Unit :=
  { RollbackOnFailure := false, MethodInvoker := catalog abcKnown bad }

/-- An in-memory source with padding, a blank line, comments and a repeated
name. -/
def paddedFile : File :=
  { Path := "", FileName := "", Content := "  a_up \r\n\n-- note\nb_up\n--x\n\ta_up" }

/-- An in-memory source whose second and fourth names are unknown. -/
def missingFile : File :=
  { Path := "", FileName := "", Content := "a_up\nmissing\nb_up\nalso_missing" }

/-- A source on disk: no in-memory content. -/
def diskFile : File := { Path := "migrations", FileName := "001_init.up.txt", Content := "" }

/-- A filesystem whose file opens, yields the line `a_up` and then fails to
read (the scanner stops on an error). -/
def truncatedFs : FileSystem :=
  fun _ _ => .ok { lines := ["a_up"], scanErr := some (GoError.other "read error") }

/-- The operations of the skipping fixture: five steps, of which `plain` follows
no convention, `b_up` has a compensation unknown to the catalog, and `a_up` and
`c_up` have known compensations. -/
def skipKnown : List String :=
  ["a_up", "plain", "b_up", "c_up", "d_up", "a_down", "c_down"]

/-- The in-memory source `a_up`, `plain`, `b_up`, `c_up`, `d_up`. -/
def skipFile : File :=
  { Path := "", FileName := "", Content := "a_up\nplain\nb_up\nc_up\nd_up" }

/-- A migrator with rollback enabled over the skipping fixture, in which the
operations listed in `bad` fail. -/
def skipMigrator (bad : List String) : Migrator Unit :=
  { RollbackOnFailure := true, MethodInvoker := catalog skipKnown bad }

/-! ## Package `strings`: facts -/

theorem hasPrefix_iff (s pre : String) : HasPrefix s pre = true ↔ pre.data <+: s.data := by
  simp only [HasPrefix, Bool.and_eq_true, decide_eq_true_eq, beq_iff_eq]
  constructor
  · rintro ⟨_, h⟩
    exact List.prefix_iff_eq_take.mpr h.symm
  · intro h
    exact ⟨h.length_le, (List.prefix_iff_eq_take.mp h).symm⟩

theorem hasSuffix_iff (s suffix : String) :
    HasSuffix s suffix = true ↔ suffix.data <:+ s.data := by
  simp only [HasSuffix, Bool.and_eq_true, decide_eq_true_eq, beq_iff_eq]
  constructor
  · rintro ⟨_, h⟩
    exact List.suffix_iff_eq_drop.mpr h.symm
  · intro h
    exact ⟨h.length_le, (List.suffix_iff_eq_drop.mp h).symm⟩

theorem hasSuffix_append (stem suffix : String) : HasSuffix (stem ++ suffix) suffix = true := by
  rw [hasSuffix_iff]
  exact ⟨stem.data, by simp⟩

theorem trimSuffix_append (stem suffix : String) : TrimSuffix (stem ++ suffix) suffix = stem := by
  simp [TrimSuffix, hasSuffix_append]

theorem stripSuffix?_eq_some (suffix : List Char) :
    ∀ (s stem : List Char), stripSuffix? suffix s = some stem ↔ s = stem ++ suffix := by
  intro s
  induction s with
  | nil =>
    intro stem
    by_cases h : [] = suffix
    · subst h; simp [stripSuffix?, eq_comm]
    · simp only [stripSuffix?, h, if_false]
      constructor
      · intro h'; cases h'
      · intro h'
        have := List.append_eq_nil.mp h'.symm
        exact absurd this.2.symm h
  | cons c cs ih =>
    intro stem
    by_cases h : c :: cs = suffix
    · subst h
      simp [stripSuffix?, eq_comm]
    · simp only [stripSuffix?, h, if_false, Option.map_eq_some']
      constructor
      · rintro ⟨stem', h1, rfl⟩
        rw [(ih stem').mp h1]; rfl
      · intro h'
        cases stem with
        | nil => exact absurd h' h
        | cons d stem' =>
          simp only [List.cons_append, List.cons.injEq] at h'
          obtain ⟨rfl, h2⟩ := h'
          exact ⟨stem', (ih stem').mpr h2, rfl⟩

theorem stripSuffix?_eq_none (suffix s : List Char) :
    stripSuffix? suffix s = none ↔ ¬ suffix <:+ s := by
  constructor
  · rintro h ⟨stem, hs⟩
    rw [(stripSuffix?_eq_some suffix s stem).mpr hs.symm] at h
    cases h
  · intro h
    cases hs : stripSuffix? suffix s with
    | none => rfl
    | some stem => exact absurd ⟨stem, ((stripSuffix?_eq_some suffix s stem).mp hs).symm⟩ h

theorem not_up_and_down (s : List Char) : ¬ ("_up".data <:+ s ∧ "_down".data <:+ s) := by
  rintro ⟨h1, h2⟩
  rw [← List.reverse_prefix] at h1 h2
  cases hs : s.reverse with
  | nil => rw [hs] at h1; simp at h1
  | cons c cs =>
    rw [hs] at h1 h2
    have e1 := (List.cons_prefix_cons.mp (by simpa using h1)).1
    have e2 := (List.cons_prefix_cons.mp (by simpa using h2)).1
    rw [← e1] at e2
    exact absurd e2 (by decide)

theorem getRollbackToMethod_up (stem : String) :
    getRollbackToMethod (stem ++ "_up") = stem ++ "_down" := by
  simp [getRollbackToMethod, hasSuffix_append, trimSuffix_append]

theorem getRollbackToMethod_down (stem : String) :
    getRollbackToMethod (stem ++ "_down") = stem ++ "_up" := by
  have h : HasSuffix (stem ++ "_down") "_up" = false := by
    rw [Bool.eq_false_iff]
    intro h
    rw [hasSuffix_iff] at h
    exact not_up_and_down _ ⟨h, (hasSuffix_iff _ _).mp (hasSuffix_append stem "_down")⟩
  simp [getRollbackToMethod, h, hasSuffix_append, trimSuffix_append]

theorem getRollbackToMethod_neither (s : String) (hup : ¬ "_up".data <:+ s.data)
    (hdown : ¬ "_down".data <:+ s.data) : getRollbackToMethod s = "" := by
  have h1 : HasSuffix s "_up" = false := by
    rw [Bool.eq_false_iff, Ne, hasSuffix_iff]; exact hup
  have h2 : HasSuffix s "_down" = false := by
    rw [Bool.eq_false_iff, Ne, hasSuffix_iff]; exact hdown
  simp [getRollbackToMethod, h1, h2]

theorem getRollbackToMethod_eq_spec (s : String) :
    getRollbackToMethod s = compensatingNameSpec s := by
  unfold compensatingNameSpec
  cases h1 : stripSuffix? "_up".data s.data with
  | some stem =>
    have hs : s = (⟨stem⟩ : String) ++ "_up" := by
      apply String.ext
      rw [String.data_append]
      exact (stripSuffix?_eq_some _ _ _).mp h1
    rw [hs, getRollbackToMethod_up]
    apply String.ext
    simp [String.data_append]
  | none =>
    have hup := (stripSuffix?_eq_none _ _).mp h1
    cases h2 : stripSuffix? "_down".data s.data with
    | some stem =>
      have hs : s = (⟨stem⟩ : String) ++ "_down" := by
        apply String.ext
        rw [String.data_append]
        exact (stripSuffix?_eq_some _ _ _).mp h2
      rw [hs, getRollbackToMethod_down]
      apply String.ext
      simp [String.data_append]
    | none =>
      exact getRollbackToMethod_neither s hup ((stripSuffix?_eq_none _ _).mp h2)

/-! ## Validation: `getMigrationMethods` -/

theorem stepNames_nil : stepNames [] = [] := rfl

theorem stepNames_cons (line : String) (rest : List String) :
    stepNames (line :: rest) =
      if TrimSpace line = "" ∨ HasPrefix (TrimSpace line) "--" = true then stepNames rest
      else TrimSpace line :: stepNames rest := by
  simp only [stepNames, List.map_cons, List.filter_cons, hasPrefix_iff]
  by_cases h1 : TrimSpace line = ""
  · simp [h1]
  · by_cases h2 : "--".data <+: (TrimSpace line).data
    · simp [h1, h2]
    · simp [h1, h2]

theorem getMigrationMethodsLoop_eq_validateNames {σ : Type} (m : Migrator σ)
    (lines : List String) : ∀ (methods : List String) (w : World σ),
    getMigrationMethodsLoop m lines methods w = validateNames m (stepNames lines) methods w := by
  induction lines with
  | nil => intro methods w; rfl
  | cons line rest ih =>
    intro methods w
    rw [stepNames_cons]
    simp only [getMigrationMethodsLoop]
    split
    · exact ih methods w
    · simp only [validateNames]
      split
      · rfl
      · exact ih _ _

theorem validateNames_ok {σ : Type} (m : Migrator σ) (names : List String) :
    ∀ (methods : List String) (w : World σ) (ms : List String),
    (validateNames m names methods w).1 = .ok ms → ms = methods ++ names := by
  induction names with
  | nil => intro methods w ms h; simp [validateNames] at h; simp [h]
  | cons n ns ih =>
    intro methods w ms h
    simp only [validateNames] at h
    split at h
    · cases h
    · have := ih _ _ _ h
      simpa using this

theorem validateNames_trace {σ : Type} (m : Migrator σ) (names : List String) :
    ∀ (methods : List String) (w : World σ),
    ∃ V, (validateNames m names methods w).2.trace = w.trace ++ V ∧ onlyIsValid V := by
  induction names with
  | nil => intro methods w; exact ⟨[], by simp [validateNames], by simp [onlyIsValid]⟩
  | cons n ns ih =>
    intro methods w
    simp only [validateNames]
    split
    · refine ⟨[Event.isValid n (callIsValid m n w).1], by simp [callIsValid], ?_⟩
      intro ev hev
      simp only [List.mem_singleton] at hev
      exact ⟨_, _, hev⟩
    · obtain ⟨V, hV, hall⟩ := ih (methods ++ [n]) (callIsValid m n w).2
      refine ⟨Event.isValid n (callIsValid m n w).1 :: V, ?_, ?_⟩
      · rw [hV]; simp [callIsValid]
      · intro ev hev
        rcases List.mem_cons.mp hev with h | h
        · exact ⟨_, _, h⟩
        · exact hall ev h

theorem validateNames_valid {σ : Type} (m : Migrator σ) (names : List String) :
    ∀ (methods : List String) (w : World σ),
    (∀ n ∈ names, ∀ s, (m.MethodInvoker.IsValid s n).1 = true) →
    ∃ s', validateNames m names methods w =
      (.ok (methods ++ names),
        { st := s', trace := w.trace ++ names.map (fun n => Event.isValid n true) }) := by
  induction names with
  | nil => intro methods w _; exact ⟨w.st, by simp [validateNames]⟩
  | cons n ns ih =>
    intro methods w h
    have hn : (m.MethodInvoker.IsValid w.st n).1 = true := h n (List.mem_cons_self _ _) w.st
    obtain ⟨s', hs'⟩ := ih (methods ++ [n]) (callIsValid m n w).2
      (fun n' hn' s => h n' (List.mem_cons_of_mem _ hn') s)
    refine ⟨s', ?_⟩
    simp only [validateNames]
    rw [if_neg (by simp [callIsValid, hn]), hs']
    simp [callIsValid, hn]

theorem validateNames_invalid {σ : Type} (m : Migrator σ) (pre : List String)
    (bad : String) (post : List String) :
    ∀ (methods : List String) (w : World σ),
    (∀ n ∈ pre, ∀ s, (m.MethodInvoker.IsValid s n).1 = true) →
    (∀ s, (m.MethodInvoker.IsValid s bad).1 = false) →
    ∃ s', validateNames m (pre ++ bad :: post) methods w =
      (.error (GoError.MissingMethodError bad),
        { st := s',
          trace := w.trace ++ pre.map (fun n => Event.isValid n true)
            ++ [Event.isValid bad false] }) := by
  induction pre with
  | nil =>
    intro methods w _ hbad
    refine ⟨(m.MethodInvoker.IsValid w.st bad).2, ?_⟩
    simp [validateNames, callIsValid, hbad]
  | cons n ns ih =>
    intro methods w h hbad
    have hn : (m.MethodInvoker.IsValid w.st n).1 = true := h n (List.mem_cons_self _ _) w.st
    obtain ⟨s', hs'⟩ := ih (methods ++ [n]) (callIsValid m n w).2
      (fun n' hn' s => h n' (List.mem_cons_of_mem _ hn') s) hbad
    refine ⟨s', ?_⟩
    show validateNames m (n :: (ns ++ bad :: post)) methods w = _
    simp only [validateNames]
    rw [if_neg (by simp [callIsValid, hn]), hs']
    simp [callIsValid, hn]

theorem getFileLines_inMemory (fs : FileSystem) (f : File) (h : f.Content ≠ "") :
    getFileLines fs f = .ok (Split f.Content '\n') := by
  have : f.Content.data.length ≠ 0 := by
    intro h0
    apply h
    apply String.ext
    exact List.length_eq_zero.mp h0
  unfold getFileLines
  rw [if_neg this]

/-! ## Reading a trace: facts -/

theorem pipeOf_append (a b : List Event) : pipeOf (a ++ b) = pipeOf a ++ pipeOf b := by
  induction a with
  | nil => rfl
  | cons ev a ih => cases ev <;> simp [pipeOf, ih]

theorem invokedOf_append (a b : List Event) :
    invokedOf (a ++ b) = invokedOf a ++ invokedOf b := by
  induction a with
  | nil => rfl
  | cons ev a ih => cases ev <;> simp [invokedOf, ih]

theorem invokeResultsOf_append (a b : List Event) :
    invokeResultsOf (a ++ b) = invokeResultsOf a ++ invokeResultsOf b := by
  induction a with
  | nil => rfl
  | cons ev a ih => cases ev <;> simp [invokeResultsOf, ih]

theorem isValidCallsOf_append (a b : List Event) :
    isValidCallsOf (a ++ b) = isValidCallsOf a ++ isValidCallsOf b := by
  induction a with
  | nil => rfl
  | cons ev a ih => cases ev <;> simp [isValidCallsOf, ih]

theorem pipeOf_okEvents (ns : List String) : pipeOf (okEvents ns) = ns.map Msg.name := by
  induction ns with
  | nil => rfl
  | cons n ns ih => simp [okEvents, pipeOf, ih]

theorem invokedOf_okEvents (ns : List String) : invokedOf (okEvents ns) = ns := by
  induction ns with
  | nil => rfl
  | cons n ns ih => simp [okEvents, invokedOf, ih]

theorem invokeResultsOf_okEvents (ns : List String) :
    invokeResultsOf (okEvents ns) = List.replicate ns.length none := by
  induction ns with
  | nil => rfl
  | cons n ns ih => simp [okEvents, invokeResultsOf, ih, List.replicate_succ]

theorem isValidCallsOf_okEvents (ns : List String) : isValidCallsOf (okEvents ns) = [] := by
  induction ns with
  | nil => rfl
  | cons n ns ih => simp [okEvents, isValidCallsOf, ih]

theorem pipeOf_onlyIsValid (t : List Event) (h : onlyIsValid t) : pipeOf t = [] := by
  induction t with
  | nil => rfl
  | cons ev t ih =>
    obtain ⟨n, b, rfl⟩ := h ev (List.mem_cons_self _ _)
    simpa [pipeOf] using ih (fun ev hev => h ev (List.mem_cons_of_mem _ hev))

theorem invokedOf_onlyIsValid (t : List Event) (h : onlyIsValid t) : invokedOf t = [] := by
  induction t with
  | nil => rfl
  | cons ev t ih =>
    obtain ⟨n, b, rfl⟩ := h ev (List.mem_cons_self _ _)
    simpa [invokedOf] using ih (fun ev hev => h ev (List.mem_cons_of_mem _ hev))

theorem invokeResultsOf_onlyIsValid (t : List Event) (h : onlyIsValid t) :
    invokeResultsOf t = [] := by
  induction t with
  | nil => rfl
  | cons ev t ih =>
    obtain ⟨n, b, rfl⟩ := h ev (List.mem_cons_self _ _)
    simpa [invokeResultsOf] using ih (fun ev hev => h ev (List.mem_cons_of_mem _ hev))

theorem onlyIsValid_map (names : List String) (b : Bool) :
    onlyIsValid (names.map (fun n => Event.isValid n b)) := by
  intro ev hev
  obtain ⟨n, _, rfl⟩ := List.mem_map.mp hev
  exact ⟨n, b, rfl⟩

theorem isValidCallsOf_map (names : List String) (b : Bool) :
    isValidCallsOf (names.map (fun n => Event.isValid n b)) = names := by
  induction names with
  | nil => rfl
  | cons n ns ih => simp [isValidCallsOf, ih]

/-! ## The trace so far does not influence a run -/

theorem after_initial {σ : Type} (w : World σ) : (initial w.st).after w.trace = w := by
  simp [initial, World.after]

theorem shift_shift {α σ : Type} (a b : List Event) (r : α × World σ) :
    shift a (shift b r) = shift (a ++ b) r := by
  simp [shift, World.after, List.append_assoc]

theorem send_after {σ : Type} (t : List Event) (msg : Msg) (w : World σ) :
    send msg (w.after t) = (send msg w).after t := by
  simp [send, World.after, List.append_assoc]

theorem callIsValid_after {σ : Type} (m : Migrator σ) (t : List Event) (n : String)
    (w : World σ) : callIsValid m n (w.after t) = shift t (callIsValid m n w) := by
  simp [callIsValid, World.after, shift, List.append_assoc]

theorem callInvoke_after {σ : Type} (m : Migrator σ) (t : List Event) (n : String)
    (w : World σ) : callInvoke m n (w.after t) = shift t (callInvoke m n w) := by
  simp [callInvoke, World.after, shift, List.append_assoc]

theorem rollbackLoop_after {σ : Type} (m : Migrator σ) (t : List Event)
    (methods : List String) (n : Nat) : ∀ (err : Option GoError) (w : World σ),
    rollbackLoop m methods n err (w.after t) = shift t (rollbackLoop m methods n err w) := by
  induction n with
  | zero => intro err w; simp [rollbackLoop, shift]
  | succ j ih =>
    intro err w
    simp only [rollbackLoop]
    split
    · exact ih err w
    · rw [callIsValid_after]
      simp only [shift]
      split
      · exact ih _ _
      · rw [send_after, callInvoke_after]
        simp only [shift]
        split
        · rw [send_after]
        · exact ih _ _

theorem migrateLoop_after {σ : Type} (m : Migrator σ) (t : List Event)
    (methods : List String) (rest : List String) : ∀ (i : Nat) (w : World σ),
    migrateLoop m methods i rest (w.after t) = shift t (migrateLoop m methods i rest w) := by
  induction rest with
  | nil => intro i w; simp [migrateLoop, shift]
  | cons methodName rest ih =>
    intro i w
    simp only [migrateLoop]
    rw [send_after, callInvoke_after]
    simp only [shift]
    split
    · rw [send_after]
      split
      · rfl
      · exact rollbackLoop_after m t methods i _ _
    · exact ih _ _

/-! ## The forward loop -/

/-- The forward loop from a fresh world either invokes every step with success,
or splits the steps at the first failing invocation. -/
theorem migrateLoop_cases {σ : Type} (m : Migrator σ) (methods : List String)
    (rest : List String) : ∀ (i : Nat) (s : σ),
    (∃ s', migrateLoop m methods i rest (initial s)
        = (none, { st := s', trace := okEvents rest })) ∨
    (∃ pre x post e s', rest = pre ++ x :: post ∧
      migrateLoop m methods i rest (initial s) =
        if m.RollbackOnFailure = false then
          (some e, { st := s', trace := okEvents pre ++ failEvents x e })
        else
          shift (okEvents pre ++ failEvents x e)
            (rollbackLoop m methods (i + pre.length) (some e) (initial s'))) := by
  induction rest with
  | nil => intro i s; exact Or.inl ⟨s, rfl⟩
  | cons x rest ih =>
    intro i s
    cases hres : (m.MethodInvoker.Invoke s x).1 with
    | some e =>
      refine Or.inr ⟨[], x, rest, e, (m.MethodInvoker.Invoke s x).2, rfl, ?_⟩
      have hw : (send (Msg.error e) (callInvoke m x (send (Msg.name x) (initial s))).2)
          = (initial (m.MethodInvoker.Invoke s x).2).after (failEvents x e) := by
        simp [send, callInvoke, initial, World.after, failEvents, hres]
      have hr : (callInvoke m x (send (Msg.name x) (initial s))).1 = some e := by
        simp [callInvoke, send, initial, hres]
      simp only [migrateLoop]
      rw [hr]
      simp only [hw]
      split
      · simp [initial, World.after, okEvents]
      · rw [rollbackLoop_after]; simp [okEvents]
    | none =>
      have hr : (callInvoke m x (send (Msg.name x) (initial s))).1 = none := by
        simp [callInvoke, send, initial, hres]
      have hw : (callInvoke m x (send (Msg.name x) (initial s))).2
          = (initial (m.MethodInvoker.Invoke s x).2).after
              [Event.send (Msg.name x), Event.invoke x none] := by
        simp [send, callInvoke, initial, World.after, hres]
      have hstep : migrateLoop m methods i (x :: rest) (initial s)
          = shift [Event.send (Msg.name x), Event.invoke x none]
              (migrateLoop m methods (i + 1) rest (initial (m.MethodInvoker.Invoke s x).2)) := by
        simp only [migrateLoop]
        rw [hr]
        simp only [hw]
        exact migrateLoop_after _ _ _ _ _ _
      rcases ih (i + 1) (m.MethodInvoker.Invoke s x).2 with ⟨s', h⟩ | ⟨pre, y, post, e, s', hsplit, h⟩
      · refine Or.inl ⟨s', ?_⟩
        rw [hstep, h]
        simp [shift, World.after, okEvents]
      · refine Or.inr ⟨x :: pre, y, post, e, s', by simp [hsplit], ?_⟩
        rw [hstep, h]
        split
        · simp [shift, World.after, okEvents]
        · rw [shift_shift]
          have : i + 1 + pre.length = i + (x :: pre).length := by simp; omega
          rw [this]
          simp [okEvents]

theorem Migrate_of_validated {σ : Type} (m : Migrator σ) (fs : FileSystem) (f : File)
    (w w1 : World σ) (methods : List String)
    (hval : getMigrationMethods m fs f w = (.ok methods, w1)) :
    Migrate m fs f w = shift w1.trace (migrateLoop m methods 0 methods (initial w1.st)) := by
  unfold Migrate
  rw [hval]
  simp only
  rw [← migrateLoop_after, after_initial]

theorem validateNames_ok_full {σ : Type} (m : Migrator σ) (names : List String) :
    ∀ (methods : List String) (w : World σ) (ms : List String),
    (validateNames m names methods w).1 = .ok ms →
    ∃ s', validateNames m names methods w =
      (.ok (methods ++ names),
        { st := s', trace := w.trace ++ names.map (fun n => Event.isValid n true) }) := by
  induction names with
  | nil => intro methods w ms _; exact ⟨w.st, by simp [validateNames]⟩
  | cons n ns ih =>
    intro methods w ms h
    simp only [validateNames] at h ⊢
    split at h
    · cases h
    · rename_i hn
      obtain ⟨s', hs'⟩ := ih _ _ _ h
      refine ⟨s', ?_⟩
      rw [if_neg hn, hs']
      have hn' : (m.MethodInvoker.IsValid w.st n).1 = true := by
        simpa [callIsValid] using hn
      simp [callIsValid, hn']

theorem getMigrationMethods_ok {σ : Type} (m : Migrator σ) (fs : FileSystem) (f : File)
    (s : σ) (methods : List String)
    (h : (getMigrationMethods m fs f (initial s)).1 = .ok methods) :
    ∃ s1, getMigrationMethods m fs f (initial s) =
      (.ok methods, { st := s1, trace := methods.map (fun n => Event.isValid n true) }) := by
  unfold getMigrationMethods at h ⊢
  cases hl : getFileLines fs f with
  | error err => rw [hl] at h; cases h
  | ok lines =>
    rw [hl] at h
    simp only [getMigrationMethodsLoop_eq_validateNames] at h ⊢
    have hms := validateNames_ok m _ _ _ _ h
    obtain ⟨s1, hs1⟩ := validateNames_ok_full m _ _ _ _ h
    refine ⟨s1, ?_⟩
    rw [hs1, hms]
    simp [initial]

theorem getMigrationMethods_stepNames {σ : Type} (m : Migrator σ) (fs : FileSystem)
    (f : File) (w : World σ) (lines methods : List String)
    (hlines : getFileLines fs f = .ok lines)
    (hok : (getMigrationMethods m fs f w).1 = .ok methods) : methods = stepNames lines := by
  unfold getMigrationMethods at hok
  rw [hlines] at hok
  simp only [getMigrationMethodsLoop_eq_validateNames] at hok
  simpa using validateNames_ok m _ _ _ _ hok

/-! ## The rollback loop, one index at a time -/

theorem rollbackLoop_absent {σ : Type} (m : Migrator σ) (methods : List String) (j : Nat)
    (err : Option GoError) (w : World σ)
    (h : getRollbackToMethod (methods.getD j "") = "") :
    rollbackLoop m methods (j + 1) err w = rollbackLoop m methods j err w := by
  simp only [rollbackLoop]
  rw [if_pos h]

theorem rollbackLoop_invalid {σ : Type} (m : Migrator σ) (methods : List String) (j : Nat)
    (err : Option GoError) (w : World σ)
    (h : getRollbackToMethod (methods.getD j "") ≠ "")
    (hv : (m.MethodInvoker.IsValid w.st (getRollbackToMethod (methods.getD j ""))).1 = false) :
    rollbackLoop m methods (j + 1) err w =
      rollbackLoop m methods j err
        { st := (m.MethodInvoker.IsValid w.st (getRollbackToMethod (methods.getD j ""))).2,
          trace := w.trace ++ [Event.isValid (getRollbackToMethod (methods.getD j "")) false] } := by
  simp only [rollbackLoop]
  generalize getRollbackToMethod (methods.getD j "") = c at h hv ⊢
  rw [if_neg h, if_pos (by simp [callIsValid, hv])]
  simp [callIsValid, hv]

theorem rollbackLoop_invoke_ok {σ : Type} (m : Migrator σ) (methods : List String) (j : Nat)
    (err : Option GoError) (w : World σ)
    (h : getRollbackToMethod (methods.getD j "") ≠ "")
    (hv : (m.MethodInvoker.IsValid w.st (getRollbackToMethod (methods.getD j ""))).1 = true)
    (hr : (m.MethodInvoker.Invoke
        (m.MethodInvoker.IsValid w.st (getRollbackToMethod (methods.getD j ""))).2
        (getRollbackToMethod (methods.getD j ""))).1 = none) :
    rollbackLoop m methods (j + 1) err w =
      rollbackLoop m methods j none
        { st := (m.MethodInvoker.Invoke
            (m.MethodInvoker.IsValid w.st (getRollbackToMethod (methods.getD j ""))).2
            (getRollbackToMethod (methods.getD j ""))).2,
          trace := w.trace ++
            [Event.isValid (getRollbackToMethod (methods.getD j "")) true,
             Event.send (Msg.name (getRollbackToMethod (methods.getD j ""))),
             Event.invoke (getRollbackToMethod (methods.getD j "")) none] } := by
  simp only [rollbackLoop]
  generalize getRollbackToMethod (methods.getD j "") = c at h hv hr ⊢
  rw [if_neg h, if_neg (by simp [callIsValid, hv])]
  have h1 : (callInvoke m c (send (Msg.name c) (callIsValid m c w).2)).1 = none := by
    simp [callInvoke, send, callIsValid, hr]
  rw [h1]
  simp [callInvoke, send, callIsValid, hv, hr]

theorem rollbackLoop_invoke_fail {σ : Type} (m : Migrator σ) (methods : List String)
    (j : Nat) (err : Option GoError) (w : World σ) (r : GoError)
    (h : getRollbackToMethod (methods.getD j "") ≠ "")
    (hv : (m.MethodInvoker.IsValid w.st (getRollbackToMethod (methods.getD j ""))).1 = true)
    (hr : (m.MethodInvoker.Invoke
        (m.MethodInvoker.IsValid w.st (getRollbackToMethod (methods.getD j ""))).2
        (getRollbackToMethod (methods.getD j ""))).1 = some r) :
    rollbackLoop m methods (j + 1) err w =
      (some r,
        { st := (m.MethodInvoker.Invoke
            (m.MethodInvoker.IsValid w.st (getRollbackToMethod (methods.getD j ""))).2
            (getRollbackToMethod (methods.getD j ""))).2,
          trace := w.trace ++
            [Event.isValid (getRollbackToMethod (methods.getD j "")) true,
             Event.send (Msg.name (getRollbackToMethod (methods.getD j ""))),
             Event.invoke (getRollbackToMethod (methods.getD j "")) (some r),
             Event.send (Msg.error r)] }) := by
  simp only [rollbackLoop]
  generalize getRollbackToMethod (methods.getD j "") = c at h hv hr ⊢
  rw [if_neg h, if_neg (by simp [callIsValid, hv])]
  have h1 : (callInvoke m c (send (Msg.name c) (callIsValid m c w).2)).1 = some r := by
    simp [callInvoke, send, callIsValid, hr]
  rw [h1]
  simp [callInvoke, send, callIsValid, hv, hr]

/-- A world is the fresh world of its state with its trace placed before. -/
theorem world_eq_after {σ : Type} (s : σ) (t : List Event) :
    ({ st := s, trace := t } : World σ) = (initial s).after t := by
  simp [initial, World.after]

/-- When every compensating name of the first `n` steps exists and is valid, and
every compensating invocation succeeds, the rollback loop from index `n - 1`
compensates each of these steps, last one first. -/
theorem rollbackLoop_all_ok {σ : Type} (m : Migrator σ) (methods : List String) :
    ∀ (n : Nat) (err : Option GoError) (s : σ), n ≤ methods.length →
    (∀ c ∈ methods.take n, getRollbackToMethod c ≠ "" ∧
      ∀ s', (m.MethodInvoker.IsValid s' (getRollbackToMethod c)).1 = true) →
    (∀ r ∈ invokeResultsOf (rollbackLoop m methods n err (initial s)).2.trace, r = none) →
    (rollbackLoop m methods n err (initial s)).2.trace
      = compensateEvents (methods.take n).reverse := by
  intro n
  induction n with
  | zero => intro err s _ _ _; simp [rollbackLoop, initial, compensateEvents]
  | succ j ih =>
    intro err s hle hcomp hres
    have hj : j < methods.length := hle
    have hget : methods.getD j "" = methods[j] := by
      simp [List.getD_eq_getElem?_getD, List.getElem?_eq_getElem hj]
    have htake : methods.take (j + 1) = methods.take j ++ [methods[j]] := by
      rw [List.take_succ, List.getElem?_eq_getElem hj]; rfl
    have hmem : methods[j] ∈ methods.take (j + 1) := by
      rw [htake]; exact List.mem_append_right _ (List.mem_singleton_self _)
    have hc := hcomp methods[j] hmem
    rw [← hget] at hc
    have hv := hc.2 s
    cases hr : (m.MethodInvoker.Invoke
        (m.MethodInvoker.IsValid (initial s).st (getRollbackToMethod (methods.getD j ""))).2
        (getRollbackToMethod (methods.getD j ""))).1 with
    | some r =>
      exfalso
      rw [rollbackLoop_invoke_fail m methods j err (initial s) r hc.1 hv hr] at hres
      have := hres (some r) (by simp [initial, invokeResultsOf])
      cases this
    | none =>
      rw [rollbackLoop_invoke_ok m methods j err (initial s) hc.1 hv hr] at hres ⊢
      rw [world_eq_after, rollbackLoop_after] at hres ⊢
      simp only [shift, World.after, initial, List.nil_append] at hres ⊢
      rw [invokeResultsOf_append] at hres
      have ih' := ih none _ (Nat.le_of_lt hj)
        (fun c hc' => hcomp c (by rw [htake]; exact List.mem_append_left _ hc'))
        (fun r hr' => hres r (List.mem_append_right _ hr'))
      simp only [initial] at ih'
      rw [ih', htake, List.reverse_append, ← hget]
      simp [compensateEvents]

/-! ## A failing compensation ends the run -/

theorem failEnds_of_no_fail (t : List Event)
    (h : ∀ ev ∈ t, ∀ n r, ev ≠ Event.invoke n (some r)) : FailEnds t := by
  intro pre post n r heq
  exact absurd rfl (h (Event.invoke n (some r)) (by rw [heq]; simp) n r)

theorem failEnds_cons (ev : Event) (t : List Event)
    (hev : ∀ n r, ev ≠ Event.invoke n (some r)) (h : FailEnds t) : FailEnds (ev :: t) := by
  intro pre post n r heq
  cases pre with
  | nil =>
    simp only [List.nil_append, List.cons.injEq] at heq
    exact absurd heq.1 (hev n r)
  | cons p pre' =>
    simp only [List.cons_append, List.cons.injEq] at heq
    exact h pre' post n r heq.2

theorem failEnds_fail (n : String) (r : GoError) :
    FailEnds [Event.invoke n (some r), Event.send (Msg.error r)] := by
  intro pre post n' r' heq
  cases pre with
  | nil =>
    simp only [List.nil_append, List.cons.injEq, Event.invoke.injEq, Option.some.injEq] at heq
    obtain ⟨⟨_, rfl⟩, hpost⟩ := heq
    exact hpost.symm
  | cons p pre' =>
    cases pre' with
    | nil => simp at heq
    | cons q pre'' => simp at heq

theorem secondFailEnds_cons (ev : Event) (t : List Event)
    (hev : ∀ n r, ev ≠ Event.invoke n (some r)) (h : SecondFailEnds t) :
    SecondFailEnds (ev :: t) := by
  intro pre post n r heq hpre
  cases pre with
  | nil => simp at hpre
  | cons p pre' =>
    simp only [List.cons_append, List.cons.injEq] at heq
    obtain ⟨rfl, ht⟩ := heq
    obtain ⟨n', e', hmem⟩ := hpre
    rcases List.mem_cons.mp hmem with h1 | h1
    · exact absurd h1.symm (hev n' e')
    · exact h pre' post n r ht ⟨n', e', h1⟩

theorem secondFailEnds_of_failEnds_tail (ev : Event) (t : List Event) (h : FailEnds t) :
    SecondFailEnds (ev :: t) := by
  intro pre post n r heq hpre
  cases pre with
  | nil => simp at hpre
  | cons p pre' =>
    simp only [List.cons_append, List.cons.injEq] at heq
    exact h pre' post n r heq.2

theorem secondFailEnds_append (a t : List Event)
    (ha : ∀ ev ∈ a, ∀ n r, ev ≠ Event.invoke n (some r)) (h : SecondFailEnds t) :
    SecondFailEnds (a ++ t) := by
  induction a with
  | nil => exact h
  | cons ev a ih =>
    exact secondFailEnds_cons ev (a ++ t) (ha ev (List.mem_cons_self _ _))
      (ih (fun ev' hev' => ha ev' (List.mem_cons_of_mem _ hev')))

theorem okEvents_no_fail (ns : List String) :
    ∀ ev ∈ okEvents ns, ∀ n r, ev ≠ Event.invoke n (some r) := by
  induction ns with
  | nil => intro ev hev; simp [okEvents] at hev
  | cons x ns ih =>
    intro ev hev n r
    simp only [okEvents, List.mem_cons] at hev
    rcases hev with rfl | rfl | hev
    · simp
    · simp
    · exact ih ev hev n r

theorem onlyIsValid_no_fail (t : List Event) (h : onlyIsValid t) :
    ∀ ev ∈ t, ∀ n r, ev ≠ Event.invoke n (some r) := by
  intro ev hev n r
  obtain ⟨n', b, rfl⟩ := h ev hev
  simp

theorem rollbackLoop_failEnds {σ : Type} (m : Migrator σ) (methods : List String) :
    ∀ (n : Nat) (err : Option GoError) (s : σ),
    FailEnds (rollbackLoop m methods n err (initial s)).2.trace := by
  intro n
  induction n with
  | zero =>
    intro err s
    exact failEnds_of_no_fail _ (by simp [rollbackLoop, initial])
  | succ j ih =>
    intro err s
    by_cases hc : getRollbackToMethod (methods.getD j "") = ""
    · rw [rollbackLoop_absent m methods j err _ hc]
      exact ih err s
    · cases hv : (m.MethodInvoker.IsValid (initial s).st
          (getRollbackToMethod (methods.getD j ""))).1 with
      | false =>
        rw [rollbackLoop_invalid m methods j err _ hc hv, world_eq_after, rollbackLoop_after]
        simp only [shift, World.after, initial, List.nil_append, List.singleton_append]
        exact failEnds_cons _ _ (by simp) (ih _ _)
      | true =>
        cases hr : (m.MethodInvoker.Invoke
            (m.MethodInvoker.IsValid (initial s).st
              (getRollbackToMethod (methods.getD j ""))).2
            (getRollbackToMethod (methods.getD j ""))).1 with
        | none =>
          rw [rollbackLoop_invoke_ok m methods j err _ hc hv hr, world_eq_after,
            rollbackLoop_after]
          simp only [shift, World.after, initial, List.nil_append, List.cons_append]
          exact failEnds_cons _ _ (by simp) (failEnds_cons _ _ (by simp)
            (failEnds_cons _ _ (by simp) (ih _ _)))
        | some r =>
          rw [rollbackLoop_invoke_fail m methods j err _ r hc hv hr]
          simp only [initial, List.nil_append]
          exact failEnds_cons _ _ (by simp) (failEnds_cons _ _ (by simp) (failEnds_fail _ _))

theorem migrateLoop_secondFailEnds {σ : Type} (m : Migrator σ) (methods rest : List String)
    (i : Nat) (s : σ) :
    SecondFailEnds (migrateLoop m methods i rest (initial s)).2.trace := by
  rcases migrateLoop_cases m methods rest i s with ⟨s', h⟩ | ⟨pre, x, post, e, s', _, h⟩
  · rw [h]
    intro pre post n r heq
    exact absurd rfl (okEvents_no_fail rest (Event.invoke n (some r))
      (by rw [show okEvents rest = pre ++ Event.invoke n (some r) :: post from heq]; simp) n r)
  · rw [h]
    split
    · refine secondFailEnds_append _ _ (okEvents_no_fail pre) ?_
      exact secondFailEnds_cons _ _ (by simp)
        (secondFailEnds_of_failEnds_tail _ _ (failEnds_of_no_fail _ (by simp)))
    · simp only [shift, World.after, List.append_assoc]
      refine secondFailEnds_append _ _ (okEvents_no_fail pre) ?_
      simp only [failEvents, List.cons_append, List.nil_append]
      exact secondFailEnds_cons _ _ (by simp)
        (secondFailEnds_of_failEnds_tail _ _
          (failEnds_cons _ _ (by simp) (rollbackLoop_failEnds m methods _ _ _)))

theorem getMigrationMethods_onlyIsValid {σ : Type} (m : Migrator σ) (fs : FileSystem)
    (f : File) (s : σ) : onlyIsValid (getMigrationMethods m fs f (initial s)).2.trace := by
  unfold getMigrationMethods
  cases getFileLines fs f with
  | error err => intro ev hev; simp [initial] at hev
  | ok lines =>
    simp only [getMigrationMethodsLoop_eq_validateNames]
    obtain ⟨V, hV, hall⟩ := validateNames_trace m (stepNames lines) [] (initial s)
    rw [hV]
    simpa [initial] using hall

/-! ## The first failing invocation -/

theorem prefix_first_failure (e e' : GoError) (rs : List (Option GoError)) :
    ∀ (a b : Nat),
    List.replicate a none ++ [some e] <+: List.replicate b none ++ some e' :: rs →
    a = b ∧ e = e' := by
  intro a
  induction a with
  | zero =>
    intro b h
    cases b with
    | zero =>
      simp only [List.replicate_zero, List.nil_append, List.cons_prefix_cons] at h
      exact ⟨rfl, Option.some.inj h.1⟩
    | succ b =>
      simp only [List.replicate_zero, List.nil_append, List.replicate_succ, List.cons_append,
        List.cons_prefix_cons] at h
      cases h.1
  | succ a ih =>
    intro b h
    cases b with
    | zero =>
      simp only [List.replicate_zero, List.nil_append, List.replicate_succ, List.cons_append,
        List.cons_prefix_cons] at h
      cases h.1
    | succ b =>
      simp only [List.replicate_succ, List.cons_append, List.cons_prefix_cons] at h
      obtain ⟨h1, h2⟩ := ih b h.2
      exact ⟨by rw [h1], h2⟩

theorem not_prefix_all_ok (e : GoError) (a b : Nat) :
    ¬ (List.replicate a none ++ [some e] <+: List.replicate b (none : Option GoError)) := by
  intro h
  have hmem : some e ∈ List.replicate b (none : Option GoError) :=
    h.subset (by simp)
  have := List.eq_of_mem_replicate hmem
  cases this

/-- The shape of a run over a validated step list in which the first
`pre.length` invocations succeed and the next one fails with `e`. -/
theorem Migrate_first_failure {σ : Type} (m : Migrator σ) (fs : FileSystem) (f : File)
    (s : σ) (pre : List String) (x : String) (post : List String) (e : GoError)
    (hval : (getMigrationMethods m fs f (initial s)).1 = .ok (pre ++ x :: post))
    (hres : List.replicate pre.length none ++ [some e] <+:
      invokeResultsOf (Migrate m fs f (initial s)).2.trace) :
    ∃ s', Migrate m fs f (initial s) =
      if m.RollbackOnFailure = false then
        (some e,
          { st := s',
            trace := (pre ++ x :: post).map (fun n => Event.isValid n true)
              ++ (okEvents pre ++ failEvents x e) })
      else
        shift ((pre ++ x :: post).map (fun n => Event.isValid n true)
            ++ (okEvents pre ++ failEvents x e))
          (rollbackLoop m (pre ++ x :: post) pre.length (some e) (initial s')) := by
  obtain ⟨s1, hv⟩ := getMigrationMethods_ok m fs f s _ hval
  have hM := Migrate_of_validated m fs f _ _ _ hv
  simp only at hM
  rcases migrateLoop_cases m (pre ++ x :: post) (pre ++ x :: post) 0 s1 with
    ⟨s', h⟩ | ⟨pre', x', post', e', s', hsplit, h⟩
  · exfalso
    rw [hM, h] at hres
    simp only [shift, World.after, invokeResultsOf_append, invokeResultsOf_okEvents,
      invokeResultsOf_onlyIsValid _ (onlyIsValid_map _ true), List.nil_append] at hres
    exact not_prefix_all_ok _ _ _ hres
  · have hshape : invokeResultsOf (Migrate m fs f (initial s)).2.trace =
        List.replicate pre'.length none ++ some e' ::
          (if m.RollbackOnFailure = false then []
           else invokeResultsOf
            (rollbackLoop m (pre ++ x :: post) (0 + pre'.length) (some e') (initial s')).2.trace) := by
      rw [hM, h]
      split <;>
      simp [shift, World.after, invokeResultsOf_append, invokeResultsOf_okEvents,
        invokeResultsOf_onlyIsValid _ (onlyIsValid_map _ true), failEvents, invokeResultsOf]
    rw [hshape] at hres
    obtain ⟨hlen, rfl⟩ := prefix_first_failure _ _ _ _ _ hres
    obtain ⟨rfl, hrest⟩ := List.append_inj hsplit hlen
    obtain ⟨rfl, rfl⟩ := List.cons.inj hrest
    refine ⟨s', ?_⟩
    rw [hM, h]
    split
    · simp [shift, World.after]
    · rw [shift_shift, Nat.zero_add]

/-! ## The claims -/

/-- C1 (the code departs from the claim).  On the steps `a_up`, `b_up`, `c_up`
with rollback enabled, where `c_up` fails and the compensations `b_down` and
`a_down` are valid and succeed, `Migrate` returns nil and not the `c_up`
failure: the rollback loop assigns the result of every compensating invocation
to the variable `err` that `Migrate` returns after the loop. -/
theorem Migrate_successful_rollback_returns_nil :
    (Migrate (rollbackMigrator ["c_up"]) noFiles abcFile (initial ())).1 = none ∧
    invokedOf (Migrate (rollbackMigrator ["c_up"]) noFiles abcFile (initial ())).2.trace
      = ["a_up", "b_up", "c_up", "b_down", "a_down"] ∧
    invokeResultsOf (Migrate (rollbackMigrator ["c_up"]) noFiles abcFile (initial ())).2.trace
      = [none, none, some (GoError.other "c_up failed"), none, none] := by
  decide

/-- C2 (the code departs from the claim).  On the steps `a_up`, `b_up`, `c_up`
with rollback enabled, where `c_up` fails and the compensation `b_down` fails,
`Migrate` returns the `b_down` failure and not the `c_up` failure. -/
theorem Migrate_failed_rollback_returns_rollback_error :
    (Migrate (rollbackMigrator ["c_up", "b_down"]) noFiles abcFile (initial ())).1
      = some (GoError.other "b_down failed") ∧
    (Migrate (rollbackMigrator ["c_up", "b_down"]) noFiles abcFile (initial ())).1
      ≠ some (GoError.other "c_up failed") ∧
    invokeResultsOf
      (Migrate (rollbackMigrator ["c_up", "b_down"]) noFiles abcFile (initial ())).2.trace
      = [none, none, some (GoError.other "c_up failed"),
          some (GoError.other "b_down failed")] := by
  decide

/-- C3.  `Migrate` on in-memory content, whatever `RollbackOnFailure` is: when
every non-skipped line names an operation for which `IsValid` is true and every
`Invoke` call of the run succeeds, `Migrate` returns nil, the names passed to
`Invoke` are exactly the step list in order (each step once), and the messages
on the channel are exactly the step names in order, without an error. -/
theorem Migrate_all_succeed {σ : Type} (m : Migrator σ) (fs : FileSystem) (f : File) (s : σ)
    (hmem : f.Content ≠ "")
    (hvalid : ∀ n ∈ stepNames (Split f.Content '\n'), ∀ s',
      (m.MethodInvoker.IsValid s' n).1 = true)
    (hinv : ∀ r ∈ invokeResultsOf (Migrate m fs f (initial s)).2.trace, r = none) :
    (Migrate m fs f (initial s)).1 = none ∧
    invokedOf (Migrate m fs f (initial s)).2.trace = stepNames (Split f.Content '\n') ∧
    pipeOf (Migrate m fs f (initial s)).2.trace
      = (stepNames (Split f.Content '\n')).map Msg.name := by
  obtain ⟨s1, hv⟩ := validateNames_valid m (stepNames (Split f.Content '\n')) [] (initial s) hvalid
  have hval : getMigrationMethods m fs f (initial s) =
      (.ok (stepNames (Split f.Content '\n')),
        { st := s1,
          trace := (stepNames (Split f.Content '\n')).map (fun n => Event.isValid n true) }) := by
    unfold getMigrationMethods
    rw [getFileLines_inMemory fs f hmem]
    simp only [getMigrationMethodsLoop_eq_validateNames]
    rw [hv]
    simp [initial]
  have hM := Migrate_of_validated m fs f _ _ _ hval
  simp only at hM
  rcases migrateLoop_cases m (stepNames (Split f.Content '\n'))
      (stepNames (Split f.Content '\n')) 0 s1 with
    ⟨s', h⟩ | ⟨pre, x, post, e, s', _, h⟩
  · rw [hM, h]
    simp [shift, World.after, pipeOf_append, invokedOf_append, pipeOf_okEvents,
      invokedOf_okEvents, pipeOf_onlyIsValid _ (onlyIsValid_map _ true),
      invokedOf_onlyIsValid _ (onlyIsValid_map _ true)]
  · exfalso
    have hmemE : some e ∈ invokeResultsOf (Migrate m fs f (initial s)).2.trace := by
      rw [hM, h]
      split <;>
      simp [shift, World.after, invokeResultsOf_append, failEvents, invokeResultsOf]
    cases hinv _ hmemE

/-- C4.  `Migrate` on in-memory content whose step names are `pre`, then `bad`,
then `post`, where `IsValid` is true for every name of `pre` and false for `bad`
(so `bad` stands at the first invalid position, `k = pre.length`): `Migrate`
returns `MissingMethodError` carrying `bad`, `Invoke` is never called, `IsValid`
is called on the names at positions `0..k` and on no later line, and the channel
receives the error alone. -/
theorem Migrate_missing_method {σ : Type} (m : Migrator σ) (fs : FileSystem) (f : File)
    (s : σ) (pre : List String) (bad : String) (post : List String)
    (hmem : f.Content ≠ "")
    (hsplit : stepNames (Split f.Content '\n') = pre ++ bad :: post)
    (hpre : ∀ n ∈ pre, ∀ s', (m.MethodInvoker.IsValid s' n).1 = true)
    (hbad : ∀ s', (m.MethodInvoker.IsValid s' bad).1 = false) :
    (Migrate m fs f (initial s)).1 = some (GoError.MissingMethodError bad) ∧
    invokedOf (Migrate m fs f (initial s)).2.trace = [] ∧
    isValidCallsOf (Migrate m fs f (initial s)).2.trace = pre ++ [bad] ∧
    pipeOf (Migrate m fs f (initial s)).2.trace
      = [Msg.error (GoError.MissingMethodError bad)] := by
  obtain ⟨s1, hv⟩ := validateNames_invalid m pre bad post [] (initial s) hpre hbad
  have hval : getMigrationMethods m fs f (initial s) =
      (.error (GoError.MissingMethodError bad),
        { st := s1,
          trace := pre.map (fun n => Event.isValid n true) ++ [Event.isValid bad false] }) := by
    unfold getMigrationMethods
    rw [getFileLines_inMemory fs f hmem]
    simp only [getMigrationMethodsLoop_eq_validateNames]
    rw [hsplit, hv]
    simp [initial]
  unfold Migrate
  rw [hval]
  simp [send, pipeOf_append, invokedOf_append, isValidCallsOf_append, isValidCallsOf_map,
    pipeOf_onlyIsValid _ (onlyIsValid_map _ true),
    invokedOf_onlyIsValid _ (onlyIsValid_map _ true), pipeOf, invokedOf, isValidCallsOf]

theorem pipeOf_compensateEvents (steps : List String) :
    pipeOf (compensateEvents steps)
      = steps.map (fun n => Msg.name (getRollbackToMethod n)) := by
  induction steps with
  | nil => rfl
  | cons n ns ih => simp [compensateEvents, pipeOf, ih]

/-- C5.  `Migrate` with `RollbackOnFailure = false` over the validated step
list `pre ++ x :: post`, when the first `pre.length` invocations succeed and the
next one (step `i = pre.length`, name `x`) fails with `e`: `Migrate` returns
`e`; after the validation calls the run consists of the successful invocations
of `pre` and the failing invocation of `x`, and of nothing else, so the names
invoked are steps `0..i` in order, `IsValid` is called for validation only, and
the channel holds the names of steps `0..i` and then `e`.  Nothing is assumed
about the form of the names. -/
theorem Migrate_failure_without_rollback {σ : Type} (m : Migrator σ) (fs : FileSystem)
    (f : File) (s : σ) (pre : List String) (x : String) (post : List String) (e : GoError)
    (hroll : m.RollbackOnFailure = false)
    (hval : (getMigrationMethods m fs f (initial s)).1 = .ok (pre ++ x :: post))
    (hres : List.replicate pre.length none ++ [some e] <+:
      invokeResultsOf (Migrate m fs f (initial s)).2.trace) :
    (Migrate m fs f (initial s)).1 = some e ∧
    (Migrate m fs f (initial s)).2.trace
      = (pre ++ x :: post).map (fun n => Event.isValid n true)
          ++ (okEvents pre ++ failEvents x e) ∧
    invokedOf (Migrate m fs f (initial s)).2.trace = pre ++ [x] ∧
    isValidCallsOf (Migrate m fs f (initial s)).2.trace = pre ++ x :: post ∧
    pipeOf (Migrate m fs f (initial s)).2.trace
      = (pre ++ [x]).map Msg.name ++ [Msg.error e] := by
  obtain ⟨s', h⟩ := Migrate_first_failure m fs f s pre x post e hval hres
  rw [if_pos hroll] at h
  rw [h]
  refine ⟨rfl, rfl, ?_, ?_, ?_⟩
  · simp [invokedOf_append, invokedOf_okEvents, failEvents, invokedOf,
      invokedOf_onlyIsValid _ (onlyIsValid_map _ true)]
  · simp only [isValidCallsOf_append, isValidCallsOf_okEvents, isValidCallsOf_map,
      failEvents, isValidCallsOf, List.append_nil]
  · simp [pipeOf_append, pipeOf_okEvents, failEvents, pipeOf,
      pipeOf_onlyIsValid _ (onlyIsValid_map _ true)]

/-- C6.  `Migrate` with `RollbackOnFailure = true` over the validated step list
`pre ++ x :: post`, when the first `pre.length` invocations succeed, the next
one (step `i = pre.length`, name `x`) fails with `e`, every step of `pre` has a
compensating name that is valid, and every later invocation succeeds: the
channel receives the names of steps `0..i`, then `e`, then the compensating
names of steps `i-1, ..., 0` in that order; the failed step is not
compensated. -/
theorem Migrate_rollback_notifications {σ : Type} (m : Migrator σ) (fs : FileSystem)
    (f : File) (s : σ) (pre : List String) (x : String) (post : List String) (e : GoError)
    (hroll : m.RollbackOnFailure = true)
    (hval : (getMigrationMethods m fs f (initial s)).1 = .ok (pre ++ x :: post))
    (hres : List.replicate pre.length none ++ [some e] <+:
      invokeResultsOf (Migrate m fs f (initial s)).2.trace)
    (hcomp : ∀ n ∈ pre, getRollbackToMethod n ≠ "" ∧
      ∀ s', (m.MethodInvoker.IsValid s' (getRollbackToMethod n)).1 = true)
    (hlater : ∀ r ∈ (invokeResultsOf (Migrate m fs f (initial s)).2.trace).drop
      (pre.length + 1), r = none) :
    pipeOf (Migrate m fs f (initial s)).2.trace
      = (pre ++ [x]).map Msg.name ++ Msg.error e ::
          pre.reverse.map (fun n => Msg.name (getRollbackToMethod n)) := by
  obtain ⟨s', h⟩ := Migrate_first_failure m fs f s pre x post e hval hres
  rw [if_neg (by simp [hroll])] at h
  have hdrop : (invokeResultsOf (Migrate m fs f (initial s)).2.trace).drop (pre.length + 1)
      = invokeResultsOf
          (rollbackLoop m (pre ++ x :: post) pre.length (some e) (initial s')).2.trace := by
    rw [h]
    simp only [shift, World.after, invokeResultsOf_append, invokeResultsOf_okEvents,
      invokeResultsOf_onlyIsValid _ (onlyIsValid_map _ true), failEvents, invokeResultsOf,
      List.nil_append]
    apply List.drop_left'
    simp
  rw [hdrop] at hlater
  have htake : (pre ++ x :: post).take pre.length = pre := by simp
  have hE := rollbackLoop_all_ok m (pre ++ x :: post) pre.length (some e) s'
    (by simp) (by rw [htake]; exact hcomp) hlater
  rw [htake] at hE
  rw [h]
  simp only [shift, World.after, hE]
  simp [pipeOf_append, pipeOf_okEvents, failEvents, pipeOf, pipeOf_compensateEvents,
    pipeOf_onlyIsValid _ (onlyIsValid_map _ true)]

/-- C7.  In a run of `Migrate`, an `Invoke` call that is made after an earlier
`Invoke` call has failed is a compensating invocation (the forward loop stops at
the first failure).  When such a call fails with `r`, the only event that
follows it is the send of `r`: `r` is the last message on the channel, no
further `Invoke` or `IsValid` call is made, and the compensations of the
remaining indices are never attempted. -/
theorem Migrate_failed_compensation_ends_run {σ : Type} (m : Migrator σ) (fs : FileSystem)
    (f : File) (s : σ) (pre post : List Event) (n : String) (r : GoError)
    (hsplit : (Migrate m fs f (initial s)).2.trace = pre ++ Event.invoke n (some r) :: post)
    (hearlier : ∃ n' e', Event.invoke n' (some e') ∈ pre) :
    post = [Event.send (Msg.error r)] ∧
    pipeOf (Migrate m fs f (initial s)).2.trace = pipeOf pre ++ [Msg.error r] ∧
    invokedOf (Migrate m fs f (initial s)).2.trace = invokedOf pre ++ [n] := by
  have hkey : SecondFailEnds (Migrate m fs f (initial s)).2.trace := by
    have hV := getMigrationMethods_onlyIsValid m fs f s
    cases hg : getMigrationMethods m fs f (initial s) with
    | mk res w1 =>
      rw [hg] at hV
      cases res with
      | error err =>
        have hM : Migrate m fs f (initial s) = (some err, send (Msg.error err) w1) := by
          unfold Migrate; rw [hg]
        rw [hM]
        simp only [send]
        refine secondFailEnds_append _ _ (onlyIsValid_no_fail _ hV) ?_
        intro pre' post' n' r' heq
        cases pre' with
        | nil => simp at heq
        | cons p pre'' => cases pre'' <;> simp at heq
      | ok methods =>
        rw [Migrate_of_validated m fs f _ _ _ hg]
        simp only [shift, World.after]
        exact secondFailEnds_append _ _ (onlyIsValid_no_fail _ hV)
          (migrateLoop_secondFailEnds m methods methods 0 _)
  have hpost := hkey pre post n r hsplit hearlier
  refine ⟨hpost, ?_, ?_⟩
  · rw [hsplit, hpost]; simp [pipeOf_append, pipeOf]
  · rw [hsplit, hpost]; simp [invokedOf_append, invokedOf]

/-- C9.  `getRollbackToMethod` equals the reference definition on every string:
a name `stem ++ "_up"` gives `stem ++ "_down"`, a name `stem ++ "_down"` gives
`stem ++ "_up"`, and a name ending in neither gives the empty string; the match
is exact and case-sensitive. -/
theorem getRollbackToMethod_refines_spec :
    (∀ s, getRollbackToMethod s = compensatingNameSpec s) ∧
    (∀ stem : String, getRollbackToMethod (stem ++ "_up") = stem ++ "_down") ∧
    (∀ stem : String, getRollbackToMethod (stem ++ "_down") = stem ++ "_up") ∧
    (∀ s : String, ¬ "_up".data <:+ s.data → ¬ "_down".data <:+ s.data →
      getRollbackToMethod s = "") ∧
    getRollbackToMethod "create_table_up" = "create_table_down" ∧
    getRollbackToMethod "create_table_down" = "create_table_up" ∧
    getRollbackToMethod "create_table" = "" ∧
    getRollbackToMethod "create_table_UP" = "" :=
  ⟨getRollbackToMethod_eq_spec, getRollbackToMethod_up, getRollbackToMethod_down,
    getRollbackToMethod_neither, by decide, by decide, by decide, by decide⟩

/-- C10.  When `getMigrationMethods` succeeds on the raw lines `lines`, the list
it returns is the list of trimmed lines that are not empty and do not begin with
`--`, in source order and with repetitions kept: a line is skipped exactly when
its trimmed text is empty or begins with `--`, and every other line gives its
whole trimmed text as one step name. -/
theorem getMigrationMethods_returns_step_names {σ : Type} (m : Migrator σ)
    (fs : FileSystem) (f : File) (w : World σ) (lines methods : List String)
    (hlines : getFileLines fs f = .ok lines)
    (hok : (getMigrationMethods m fs f w).1 = .ok methods) :
    methods = (lines.map TrimSpace).filter
      (fun l => decide (l ≠ "" ∧ ¬ "--".data <+: l.data)) :=
  getMigrationMethods_stepNames m fs f w lines methods hlines hok

/-! ## The claims at concrete inputs -/

theorem catalog_isValid_known (known bad : List String) (n : String) (hn : n ∈ known)
    (s' : Unit) : ((catalog known bad).IsValid s' n).1 = true := by
  simp [catalog, hn]

/-- C3 at the source `a_up`, `b_up`, `c_up` with every operation succeeding. -/
theorem Migrate_all_succeed_witness :
    abcFile.Content ≠ "" ∧
    ((Migrate (plainMigrator []) noFiles abcFile (initial ())).1 = none ∧
     invokedOf (Migrate (plainMigrator []) noFiles abcFile (initial ())).2.trace
       = stepNames (Split abcFile.Content '\n') ∧
     pipeOf (Migrate (plainMigrator []) noFiles abcFile (initial ())).2.trace
       = (stepNames (Split abcFile.Content '\n')).map Msg.name) :=
  ⟨by decide,
   Migrate_all_succeed (plainMigrator []) noFiles abcFile () (by decide)
    (fun n hn s' => catalog_isValid_known abcKnown [] n
      (by
        have h3 : stepNames (Split abcFile.Content '\n') = ["a_up", "b_up", "c_up"] := by decide
        rw [h3] at hn
        simp only [List.mem_cons, List.mem_singleton, List.not_mem_nil, or_false] at hn
        rcases hn with rfl | rfl | rfl <;> decide) s')
    (by decide)⟩

/-- C4 at a source whose second name is unknown to the catalog. -/
theorem Migrate_missing_method_witness :
    stepNames (Split missingFile.Content '\n') = ["a_up"] ++ "missing" :: ["b_up", "also_missing"] ∧
    ((Migrate (plainMigrator []) noFiles missingFile (initial ())).1
       = some (GoError.MissingMethodError "missing") ∧
     invokedOf (Migrate (plainMigrator []) noFiles missingFile (initial ())).2.trace = [] ∧
     isValidCallsOf (Migrate (plainMigrator []) noFiles missingFile (initial ())).2.trace
       = ["a_up"] ++ ["missing"] ∧
     pipeOf (Migrate (plainMigrator []) noFiles missingFile (initial ())).2.trace
       = [Msg.error (GoError.MissingMethodError "missing")]) :=
  ⟨by decide,
   Migrate_missing_method (plainMigrator []) noFiles missingFile () ["a_up"] "missing"
    ["b_up", "also_missing"] (by decide) (by decide)
    (fun n hn s' => catalog_isValid_known abcKnown [] n
      (by
        simp only [List.mem_singleton] at hn
        subst hn
        decide) s')
    (fun s' => by cases s'; decide)⟩

/-- C5 at the source `a_up`, `b_up`, `c_up` with `b_up` failing and rollback
disabled. -/
theorem Migrate_failure_without_rollback_witness :
    (Migrate (plainMigrator ["b_up"]) noFiles abcFile (initial ())).1
      = some (GoError.other "b_up failed") ∧
    (Migrate (plainMigrator ["b_up"]) noFiles abcFile (initial ())).2.trace
      = (["a_up"] ++ "b_up" :: ["c_up"]).map (fun n => Event.isValid n true)
          ++ (okEvents ["a_up"] ++ failEvents "b_up" (GoError.other "b_up failed")) ∧
    invokedOf (Migrate (plainMigrator ["b_up"]) noFiles abcFile (initial ())).2.trace
      = ["a_up"] ++ ["b_up"] ∧
    isValidCallsOf (Migrate (plainMigrator ["b_up"]) noFiles abcFile (initial ())).2.trace
      = ["a_up"] ++ "b_up" :: ["c_up"] ∧
    pipeOf (Migrate (plainMigrator ["b_up"]) noFiles abcFile (initial ())).2.trace
      = (["a_up"] ++ ["b_up"]).map Msg.name ++ [Msg.error (GoError.other "b_up failed")] :=
  Migrate_failure_without_rollback (plainMigrator ["b_up"]) noFiles abcFile () ["a_up"] "b_up"
    ["c_up"] (GoError.other "b_up failed") rfl rfl ⟨[], by decide⟩

/-- C6 at the source `a_up`, `b_up`, `c_up` with `c_up` failing and rollback
enabled: the channel receives `a_up`, `b_up`, `c_up`, the error, `b_down`,
`a_down`. -/
theorem Migrate_rollback_notifications_witness :
    pipeOf (Migrate (rollbackMigrator ["c_up"]) noFiles abcFile (initial ())).2.trace
      = (["a_up", "b_up"] ++ ["c_up"]).map Msg.name ++ Msg.error (GoError.other "c_up failed") ::
          (["a_up", "b_up"].reverse.map (fun n => Msg.name (getRollbackToMethod n))) ∧
    (["a_up", "b_up"].reverse.map (fun n => Msg.name (getRollbackToMethod n)))
      = [Msg.name "b_down", Msg.name "a_down"] :=
  ⟨Migrate_rollback_notifications (rollbackMigrator ["c_up"]) noFiles abcFile ()
    ["a_up", "b_up"] "c_up" [] (GoError.other "c_up failed") rfl rfl ⟨[none, none], by decide⟩
    (fun n hn => by
      simp only [List.mem_cons, List.mem_singleton, List.not_mem_nil, or_false] at hn
      rcases hn with rfl | rfl
      · exact ⟨by decide, fun s' => by cases s'; decide⟩
      · exact ⟨by decide, fun s' => by cases s'; decide⟩)
    (by decide),
   by decide⟩

/-- C7 at the source `a_up`, `b_up`, `c_up` with `c_up` and `b_down` failing:
after the failing `b_down` the run only sends its error, and `a_down` is never
invoked. -/
theorem Migrate_failed_compensation_ends_run_witness :
    ([Event.send (Msg.error (GoError.other "b_down failed"))]
        = [Event.send (Msg.error (GoError.other "b_down failed"))] ∧
     pipeOf (Migrate (rollbackMigrator ["c_up", "b_down"]) noFiles abcFile (initial ())).2.trace
       = pipeOf
          [Event.isValid "a_up" true, Event.isValid "b_up" true, Event.isValid "c_up" true,
           Event.send (Msg.name "a_up"), Event.invoke "a_up" none,
           Event.send (Msg.name "b_up"), Event.invoke "b_up" none,
           Event.send (Msg.name "c_up"),
           Event.invoke "c_up" (some (GoError.other "c_up failed")),
           Event.send (Msg.error (GoError.other "c_up failed")),
           Event.isValid "b_down" true, Event.send (Msg.name "b_down")]
         ++ [Msg.error (GoError.other "b_down failed")] ∧
     invokedOf (Migrate (rollbackMigrator ["c_up", "b_down"]) noFiles abcFile (initial ())).2.trace
       = invokedOf
          [Event.isValid "a_up" true, Event.isValid "b_up" true, Event.isValid "c_up" true,
           Event.send (Msg.name "a_up"), Event.invoke "a_up" none,
           Event.send (Msg.name "b_up"), Event.invoke "b_up" none,
           Event.send (Msg.name "c_up"),
           Event.invoke "c_up" (some (GoError.other "c_up failed")),
           Event.send (Msg.error (GoError.other "c_up failed")),
           Event.isValid "b_down" true, Event.send (Msg.name "b_down")]
         ++ ["b_down"]) ∧
    invokedOf (Migrate (rollbackMigrator ["c_up", "b_down"]) noFiles abcFile (initial ())).2.trace
      = ["a_up", "b_up", "c_up", "b_down"] :=
  ⟨Migrate_failed_compensation_ends_run (rollbackMigrator ["c_up", "b_down"]) noFiles abcFile ()
    [Event.isValid "a_up" true, Event.isValid "b_up" true, Event.isValid "c_up" true,
     Event.send (Msg.name "a_up"), Event.invoke "a_up" none,
     Event.send (Msg.name "b_up"), Event.invoke "b_up" none,
     Event.send (Msg.name "c_up"),
     Event.invoke "c_up" (some (GoError.other "c_up failed")),
     Event.send (Msg.error (GoError.other "c_up failed")),
     Event.isValid "b_down" true, Event.send (Msg.name "b_down")]
    [Event.send (Msg.error (GoError.other "b_down failed"))]
    "b_down" (GoError.other "b_down failed") (by decide)
    ⟨"c_up", GoError.other "c_up failed", by decide⟩,
   by decide⟩

/-- C10 at a source with padding, a blank line, comments and a repeated name. -/
theorem getMigrationMethods_returns_step_names_witness :
    (getMigrationMethods (plainMigrator []) noFiles paddedFile (initial ())).1
      = .ok ["a_up", "b_up", "a_up"] ∧
    ["a_up", "b_up", "a_up"] = ((Split paddedFile.Content '\n').map TrimSpace).filter
      (fun l => decide (l ≠ "" ∧ ¬ "--".data <+: l.data)) :=
  ⟨rfl,
   getMigrationMethods_returns_step_names (plainMigrator []) noFiles paddedFile (initial ())
    (Split paddedFile.Content '\n') ["a_up", "b_up", "a_up"] rfl rfl⟩

/-! ## Later claims: the pure helpers -/

theorem splitChars_ne_nil (sep : Char) (cs : List Char) : splitChars sep cs ≠ [] := by
  induction cs with
  | nil => simp [splitChars]
  | cons c cs ih =>
    simp only [splitChars]
    split
    · simp
    · split <;> simp

theorem joinChars_cons (sep : Char) (l : List Char) (ls : List (List Char)) (h : ls ≠ []) :
    joinChars sep (l :: ls) = l ++ sep :: joinChars sep ls := by
  cases ls with
  | nil => exact absurd rfl h
  | cons l' ls => rfl

theorem joinChars_cons_head (sep c : Char) (l : List Char) (ls : List (List Char)) :
    joinChars sep ((c :: l) :: ls) = c :: joinChars sep (l :: ls) := by
  cases ls with
  | nil => rfl
  | cons l' ls => rfl

theorem joinChars_splitChars (sep : Char) (cs : List Char) :
    joinChars sep (splitChars sep cs) = cs := by
  induction cs with
  | nil => rfl
  | cons c cs ih =>
    simp only [splitChars]
    split
    · rename_i h
      rw [joinChars_cons sep [] _ (splitChars_ne_nil sep cs), ih, h]
      rfl
    · cases hs : splitChars sep cs with
      | nil => exact absurd hs (splitChars_ne_nil sep cs)
      | cons l ls =>
        simp only
        rw [joinChars_cons_head, ← hs, ih]

theorem join_split (s : String) (sep : Char) : Join (Split s sep) sep = s := by
  apply String.ext
  simp only [Join, Split, List.map_map]
  have : (String.data ∘ String.mk) = id := by funext l; rfl
  rw [this, List.map_id, joinChars_splitChars]

theorem swap_length (a : List String) (i j : Nat) : (swap a i j).length = a.length := by
  simp [swap]

theorem swap_getElem? (a : List String) (i j p : Nat) (hi : i < a.length)
    (hj : j < a.length) :
    (swap a i j)[p]? = if p = j then a[i]? else if p = i then a[j]? else a[p]? := by
  have hgi : a.getD i "" = a[i] := by
    simp [List.getD_eq_getElem?_getD, List.getElem?_eq_getElem hi]
  have hgj : a.getD j "" = a[j] := by
    simp [List.getD_eq_getElem?_getD, List.getElem?_eq_getElem hj]
  unfold swap
  rw [hgi, hgj, List.getElem?_set, List.getElem?_set]
  by_cases h1 : p = j
  · subst h1
    simp [List.getElem?_eq_getElem hi, hj]
  · by_cases h2 : p = i
    · subst h2
      simp [List.getElem?_eq_getElem hj, hi, h1, Ne.symm h1]
    · simp [h1, h2, Ne.symm h1, Ne.symm h2]

theorem reverseInPlaceLoop_spec : ∀ (fuel i : Nat) (a : List String),
    i + fuel = a.length / 2 →
    (reverseInPlaceLoop fuel i a).length = a.length ∧
    ∀ p, (reverseInPlaceLoop fuel i a)[p]?
      = if i ≤ p ∧ p < a.length - i then a[a.length - 1 - p]? else a[p]? := by
  intro fuel
  induction fuel with
  | zero =>
    intro i a h
    refine ⟨rfl, fun p => ?_⟩
    simp only [reverseInPlaceLoop]
    split
    · rename_i hp
      have : a.length - 1 - p = p := by omega
      rw [this]
    · rfl
  | succ fuel ih =>
    intro i a h
    have hi : i < a.length / 2 := by omega
    have hlen := swap_length a i (a.length - i - 1)
    simp only [reverseInPlaceLoop, if_pos hi]
    obtain ⟨h1, h2⟩ := ih (i + 1) (swap a i (a.length - i - 1)) (by rw [hlen]; omega)
    refine ⟨by rw [h1, hlen], fun p => ?_⟩
    rw [h2 p, hlen]
    have hsw := fun q => swap_getElem? a i (a.length - i - 1) q (by omega) (by omega)
    by_cases hp : i + 1 ≤ p ∧ p < a.length - (i + 1)
    · rw [if_pos hp, if_pos (by omega), hsw, if_neg (by omega), if_neg (by omega)]
    · rw [if_neg hp, hsw]
      by_cases hpj : p = a.length - i - 1
      · rw [if_pos hpj, if_pos (by omega)]
        have : a.length - 1 - p = i := by omega
        rw [this]
      · rw [if_neg hpj]
        by_cases hpi : p = i
        · rw [if_pos hpi, if_pos (by omega)]
          have : a.length - 1 - p = a.length - i - 1 := by omega
          rw [this]
        · rw [if_neg hpi, if_neg (by omega)]

theorem reverseInPlace_eq_reverse (a : List String) : reverseInPlace a = a.reverse := by
  obtain ⟨h1, h2⟩ := reverseInPlaceLoop_spec (a.length / 2) 0 a (by omega)
  apply List.ext_getElem?
  intro p
  unfold reverseInPlace
  rw [h2 p]
  by_cases hp : p < a.length
  · rw [if_pos (by omega), List.getElem?_reverse hp]
  · rw [if_neg (by omega), List.getElem?_eq_none (by omega),
      List.getElem?_eq_none (by simp; omega)]

theorem getRollbackToMethod_ne_empty_of_suffix (s : String)
    (h : "_up".data <:+ s.data ∨ "_down".data <:+ s.data) :
    getRollbackToMethod s ≠ "" ∧ getRollbackToMethod (getRollbackToMethod s) = s := by
  rcases h with ⟨stem, hs⟩ | ⟨stem, hs⟩
  · have hs' : s = (⟨stem⟩ : String) ++ "_up" := by
      apply String.ext; rw [String.data_append]; exact hs.symm
    rw [hs', getRollbackToMethod_up, getRollbackToMethod_down]
    refine ⟨?_, rfl⟩
    intro h0
    have := congrArg String.data h0
    simp [String.data_append] at this
  · have hs' : s = (⟨stem⟩ : String) ++ "_down" := by
      apply String.ext; rw [String.data_append]; exact hs.symm
    rw [hs', getRollbackToMethod_down, getRollbackToMethod_up]
    refine ⟨?_, rfl⟩
    intro h0
    have := congrArg String.data h0
    simp [String.data_append] at this

theorem Migrate_open_failure {σ : Type} (m : Migrator σ) (fs : FileSystem) (f : File)
    (s : σ) (err : GoError) (hdisk : f.Content = "")
    (hopen : fs f.Path f.FileName = .error err) :
    getFileLines fs f = .error err ∧
    Migrate m fs f (initial s) = (some err, { st := s, trace := [Event.send (Msg.error err)] }) := by
  have hl : getFileLines fs f = .error err := by
    unfold getFileLines
    rw [if_pos (by rw [hdisk]; rfl), hopen]
  refine ⟨hl, ?_⟩
  unfold Migrate getMigrationMethods
  rw [hl]
  simp [send, initial]

/-- C14.  A file whose `Content` is not empty: `getFileLines` returns, without
error, `Content` split at the newline character, for every filesystem and every
`Path` and `FileName` (the filesystem is not consulted), and joining the
returned lines with a newline gives `Content` back. -/
theorem getFileLines_inMemory_precedence (f : File) (hmem : f.Content ≠ "") :
    (∀ fs, getFileLines fs f = .ok (Split f.Content '\n')) ∧
    (∀ fs p n, getFileLines fs { f with Path := p, FileName := n }
      = .ok (Split f.Content '\n')) ∧
    Join (Split f.Content '\n') '\n' = f.Content :=
  ⟨fun fs => getFileLines_inMemory fs f hmem,
   fun fs p n => getFileLines_inMemory fs { f with Path := p, FileName := n } hmem,
   join_split f.Content '\n'⟩

/-- C14 at the in-memory source `a_up`, `b_up`, `c_up`. -/
theorem getFileLines_inMemory_precedence_witness :
    abcFile.Content ≠ "" ∧
    getFileLines noFiles abcFile = .ok ["a_up", "b_up", "c_up"] ∧
    ((∀ fs, getFileLines fs abcFile = .ok (Split abcFile.Content '\n')) ∧
     (∀ fs p n, getFileLines fs { abcFile with Path := p, FileName := n }
       = .ok (Split abcFile.Content '\n')) ∧
     Join (Split abcFile.Content '\n') '\n' = abcFile.Content) :=
  ⟨by decide, rfl, getFileLines_inMemory_precedence abcFile (by decide)⟩

/-- C15 (the code departs from the claim).  A source with no in-memory content
whose file opens and then fails to read after the line `a_up`: `getFileLines`
returns that line with a nil error, since the scanner's error is never
consulted, and `Migrate` validates and invokes `a_up` and returns nil. -/
theorem Migrate_ignores_read_error :
    getFileLines truncatedFs diskFile = .ok ["a_up"] ∧
    (Migrate (plainMigrator []) truncatedFs diskFile (initial ())).1 = none ∧
    isValidCallsOf (Migrate (plainMigrator []) truncatedFs diskFile (initial ())).2.trace
      = ["a_up"] ∧
    invokedOf (Migrate (plainMigrator []) truncatedFs diskFile (initial ())).2.trace
      = ["a_up"] :=
  ⟨rfl, by decide, by decide, by decide⟩

/-- C16 (the code departs from the claim).  The text of
`MethodInvocationFailedError.Error` does not depend on the underlying cause: the
operand formatted by `%v` is the method value `e.Error`, printed as a code
pointer, and not the field `e.Err`.  For the step `a_up` and a cause whose
message is `boom` the text is not `Method a_up returned an error: boom`,
whatever the code pointer is. -/
theorem MethodInvocationFailedError_Error_ignores_cause :
    (∀ addr n e e', MethodInvocationFailedError.Error addr n e
      = MethodInvocationFailedError.Error addr n e') ∧
    causeMessage (GoError.other "boom") = some "boom" ∧
    (∀ addr, MethodInvocationFailedError.Error addr "a_up" (GoError.other "boom")
      ≠ invocationFailedTextSpec "a_up" "boom") ∧
    MethodInvocationFailedError.Error 4698784 "a_up" (GoError.other "boom")
      = "Method a_up returned an error: 0x47b2a0" := by
  refine ⟨fun _ _ _ _ => rfl, rfl, fun addr h => ?_, by decide⟩
  have := congrArg String.data h
  simp [MethodInvocationFailedError.Error, invocationFailedTextSpec, formatFuncValue,
    String.data_append] at this

/-- C18.  `getRollbackToMethod` applied twice gives back every name that ends in
`_up` or in `_down`, and its result is the empty string exactly for the names
that end in neither. -/
theorem getRollbackToMethod_involution :
    (∀ s : String, "_up".data <:+ s.data ∨ "_down".data <:+ s.data →
      getRollbackToMethod (getRollbackToMethod s) = s) ∧
    (∀ s : String, getRollbackToMethod s = "" ↔
      (¬ "_up".data <:+ s.data ∧ ¬ "_down".data <:+ s.data)) ∧
    getRollbackToMethod (getRollbackToMethod "create_table_up") = "create_table_up" ∧
    getRollbackToMethod (getRollbackToMethod "create_table_down") = "create_table_down" := by
  refine ⟨fun s h => (getRollbackToMethod_ne_empty_of_suffix s h).2, fun s => ⟨fun h => ?_,
    fun h => getRollbackToMethod_neither s h.1 h.2⟩, by decide, by decide⟩
  constructor
  · intro hup
    exact (getRollbackToMethod_ne_empty_of_suffix s (Or.inl hup)).1 h
  · intro hdown
    exact (getRollbackToMethod_ne_empty_of_suffix s (Or.inr hdown)).1 h

/-- C19.  `reverseInPlace` reverses its argument: the result is the reversed
list, so the element at index `i` is the original element at index
`n - 1 - i` for every `i < n` (empty and odd-length lists included), and applying
it twice gives the original list back. -/
theorem reverseInPlace_reverses :
    (∀ a, reverseInPlace a = a.reverse) ∧
    (∀ (a : List String) (i : Nat), i < a.length →
      (reverseInPlace a).length = a.length ∧
      (reverseInPlace a)[i]? = a[a.length - 1 - i]?) ∧
    (∀ a, reverseInPlace (reverseInPlace a) = a) ∧
    reverseInPlace [] = [] ∧
    reverseInPlace ["a", "b", "c"] = ["c", "b", "a"] ∧
    reverseInPlace ["a", "b", "c", "d"] = ["d", "c", "b", "a"] := by
  refine ⟨reverseInPlace_eq_reverse, fun a i hi => ?_, fun a => ?_, by decide, by decide,
    by decide⟩
  · rw [reverseInPlace_eq_reverse]
    exact ⟨List.length_reverse a, List.getElem?_reverse hi⟩
  · rw [reverseInPlace_eq_reverse, reverseInPlace_eq_reverse, List.reverse_reverse]

/-! ## The shape of every run -/

theorem rollbackLoop_run {σ : Type} (m : Migrator σ) (methods : List String) :
    ∀ (n : Nat) (err : Option GoError) (s : σ),
    RollbackRun m methods n err (rollbackLoop m methods n err (initial s)).1
      (rollbackLoop m methods n err (initial s)).2.trace := by
  intro n
  induction n with
  | zero => intro err s; exact RollbackRun.done err
  | succ j ih =>
    intro err s
    by_cases hc : getRollbackToMethod (methods.getD j "") = ""
    · rw [rollbackLoop_absent m methods j err _ hc]
      exact RollbackRun.absent j err _ _ hc (ih err s)
    · cases hv : (m.MethodInvoker.IsValid (initial s).st
          (getRollbackToMethod (methods.getD j ""))).1 with
      | false =>
        rw [rollbackLoop_invalid m methods j err _ hc hv, world_eq_after, rollbackLoop_after]
        simp only [shift, World.after, initial, List.nil_append, List.singleton_append]
        exact RollbackRun.invalid j err _ _ hc ⟨_, hv⟩ (ih _ _)
      | true =>
        cases hr : (m.MethodInvoker.Invoke
            (m.MethodInvoker.IsValid (initial s).st
              (getRollbackToMethod (methods.getD j ""))).2
            (getRollbackToMethod (methods.getD j ""))).1 with
        | none =>
          rw [rollbackLoop_invoke_ok m methods j err _ hc hv hr, world_eq_after,
            rollbackLoop_after]
          simp only [shift, World.after, initial, List.nil_append, List.cons_append]
          exact RollbackRun.ok j err _ _ hc ⟨_, hv⟩ (ih _ _)
        | some r =>
          rw [rollbackLoop_invoke_fail m methods j err _ r hc hv hr]
          simp only [initial, List.nil_append]
          exact RollbackRun.fail j err r hc ⟨_, hv⟩

/-- The shape of a run over a validated step list: every step succeeds, or the
steps split at the first failing invocation, after which only the rollback loop
runs (when rollback is enabled). -/
theorem Migrate_shape {σ : Type} (m : Migrator σ) (fs : FileSystem) (f : File) (s : σ)
    (methods : List String)
    (hval : (getMigrationMethods m fs f (initial s)).1 = .ok methods) :
    (∃ s', Migrate m fs f (initial s) =
      (none, { st := s',
               trace := methods.map (fun n => Event.isValid n true) ++ okEvents methods })) ∨
    (∃ pre x post e s', methods = pre ++ x :: post ∧
      Migrate m fs f (initial s) =
        if m.RollbackOnFailure = false then
          (some e,
            { st := s',
              trace := methods.map (fun n => Event.isValid n true)
                ++ (okEvents pre ++ failEvents x e) })
        else
          shift (methods.map (fun n => Event.isValid n true)
              ++ (okEvents pre ++ failEvents x e))
            (rollbackLoop m methods pre.length (some e) (initial s'))) := by
  obtain ⟨s1, hv⟩ := getMigrationMethods_ok m fs f s _ hval
  have hM := Migrate_of_validated m fs f _ _ _ hv
  simp only at hM
  rcases migrateLoop_cases m methods methods 0 s1 with
    ⟨s', h⟩ | ⟨pre, x, post, e, s', hsplit, h⟩
  · refine Or.inl ⟨s', ?_⟩
    rw [hM, h]
    simp [shift, World.after]
  · refine Or.inr ⟨pre, x, post, e, s', hsplit, ?_⟩
    rw [hM, h]
    split
    · simp [shift, World.after]
    · rw [shift_shift, Nat.zero_add]

theorem paired_append (a b : List Event) (ha : Paired a) (hb : Paired b) : Paired (a ++ b) := by
  induction ha with
  | nil => exact hb
  | isValid n v _ ih => exact Paired.isValid n v ih
  | ok n _ ih => exact Paired.ok n ih
  | fail n e _ ih => exact Paired.fail n e ih

theorem paired_isValid_map (names : List String) (b : Bool) :
    Paired (names.map (fun n => Event.isValid n b)) := by
  induction names with
  | nil => exact Paired.nil
  | cons n ns ih => exact Paired.isValid n b ih

theorem paired_okEvents (names : List String) : Paired (okEvents names) := by
  induction names with
  | nil => exact Paired.nil
  | cons n ns ih => exact Paired.ok n ih

theorem paired_failEvents (n : String) (e : GoError) : Paired (failEvents n e) :=
  Paired.fail n e Paired.nil

theorem paired_of_rollbackRun {σ : Type} (m : Migrator σ) (methods : List String) (k : Nat)
    (err r : Option GoError) (t : List Event) (h : RollbackRun m methods k err r t) :
    Paired t := by
  induction h with
  | done err => exact Paired.nil
  | absent j err r t _ _ ih => exact ih
  | invalid j err r t _ _ _ ih => exact Paired.isValid _ _ ih
  | ok j err r t _ _ _ ih => exact Paired.isValid _ _ (Paired.ok _ ih)
  | fail j err e _ _ => exact Paired.isValid _ _ (Paired.fail _ _ Paired.nil)

theorem pipeOf_eq_mirrorOf (t : List Event) (h : Paired t) : pipeOf t = mirrorOf t := by
  induction h with
  | nil => rfl
  | isValid n b _ ih => simpa [pipeOf, mirrorOf] using ih
  | ok n _ ih => simpa [pipeOf, mirrorOf] using ih
  | fail n e _ ih => simpa [pipeOf, mirrorOf] using ih

theorem namesOf_mirrorOf (t : List Event) : namesOf (mirrorOf t) = invokedOf t := by
  induction t with
  | nil => rfl
  | cons ev t ih =>
    cases ev with
    | isValid n b => simpa [mirrorOf, invokedOf] using ih
    | send msg => simpa [mirrorOf, invokedOf] using ih
    | invoke n r =>
      cases r with
      | none => simp [mirrorOf, invokedOf, namesOf, ih]
      | some e => simp [mirrorOf, invokedOf, namesOf, ih]

/-- In a paired trace every `Invoke` call comes right after the send of its
name. -/
theorem paired_invoke_after_send (t : List Event) (h : Paired t) :
    ∀ (i : Nat) (n : String) (r : Option GoError), t[i]? = some (Event.invoke n r) →
    ∃ k, i = k + 1 ∧ t[k]? = some (Event.send (Msg.name n)) := by
  induction h with
  | nil => intro i n r hi; simp at hi
  | isValid n' b _ ih =>
    intro i n r hi
    rcases i with _ | j
    · simp at hi
    · obtain ⟨k, rfl, hk⟩ := ih j n r (by simpa using hi)
      exact ⟨k + 1, rfl, by simpa using hk⟩
  | ok n' _ ih =>
    intro i n r hi
    rcases i with _ | _ | j
    · simp at hi
    · simp only [List.getElem?_cons_succ, List.getElem?_cons_zero, Option.some.injEq,
        Event.invoke.injEq] at hi
      exact ⟨0, rfl, by simp [hi.1]⟩
    · obtain ⟨k, rfl, hk⟩ := ih j n r (by simpa using hi)
      exact ⟨k + 1 + 1, rfl, by simpa using hk⟩
  | fail n' e _ ih =>
    intro i n r hi
    rcases i with _ | _ | _ | j
    · simp at hi
    · simp only [List.getElem?_cons_succ, List.getElem?_cons_zero, Option.some.injEq,
        Event.invoke.injEq] at hi
      exact ⟨0, rfl, by simp [hi.1]⟩
    · simp at hi
    · obtain ⟨k, rfl, hk⟩ := ih j n r (by simpa using hi)
      exact ⟨k + 1 + 1 + 1, rfl, by simpa using hk⟩

/-- In a paired trace the send of a name is followed at once by the `Invoke`
call of that name. -/
theorem paired_send_before_invoke (t : List Event) (h : Paired t) :
    ∀ (i : Nat) (n : String), t[i]? = some (Event.send (Msg.name n)) →
    ∃ r, t[i + 1]? = some (Event.invoke n r) := by
  induction h with
  | nil => intro i n hi; simp at hi
  | isValid n' b _ ih =>
    intro i n hi
    rcases i with _ | j
    · simp at hi
    · obtain ⟨r, hr⟩ := ih j n (by simpa using hi)
      exact ⟨r, by simpa using hr⟩
  | ok n' _ ih =>
    intro i n hi
    rcases i with _ | _ | j
    · simp only [List.getElem?_cons_zero, Option.some.injEq, Event.send.injEq,
        Msg.name.injEq] at hi
      exact ⟨none, by simp [hi]⟩
    · simp at hi
    · obtain ⟨r, hr⟩ := ih j n (by simpa using hi)
      exact ⟨r, by simpa using hr⟩
  | fail n' e _ ih =>
    intro i n hi
    rcases i with _ | _ | _ | j
    · simp only [List.getElem?_cons_zero, Option.some.injEq, Event.send.injEq,
        Msg.name.injEq] at hi
      exact ⟨some e, by simp [hi]⟩
    · simp at hi
    · simp at hi
    · obtain ⟨r, hr⟩ := ih j n (by simpa using hi)
      exact ⟨r, by simpa using hr⟩

/-- In a paired trace a failing `Invoke` call is followed at once by the send
of its error. -/
theorem paired_error_after_fail (t : List Event) (h : Paired t) :
    ∀ (i : Nat) (n : String) (e : GoError), t[i]? = some (Event.invoke n (some e)) →
    t[i + 1]? = some (Event.send (Msg.error e)) := by
  induction h with
  | nil => intro i n e hi; simp at hi
  | isValid n' b _ ih =>
    intro i n e hi
    rcases i with _ | j
    · simp at hi
    · simpa using ih j n e (by simpa using hi)
  | ok n' _ ih =>
    intro i n e hi
    rcases i with _ | _ | j
    · simp at hi
    · simp at hi
    · simpa using ih j n e (by simpa using hi)
  | fail n' e' _ ih =>
    intro i n e hi
    rcases i with _ | _ | _ | j
    · simp at hi
    · simp only [List.getElem?_cons_succ, List.getElem?_cons_zero, Option.some.injEq,
        Event.invoke.injEq] at hi
      simp [hi.2]
    · simp at hi
    · simpa using ih j n e (by simpa using hi)

/-- The rollback loop returns the result of its last `Invoke` call, or the error
it was entered with when it makes no call. -/
theorem rollbackRun_result {σ : Type} (m : Migrator σ) (methods : List String) (k : Nat)
    (err r : Option GoError) (t : List Event) (h : RollbackRun m methods k err r t) :
    (err :: invokeResultsOf t).getLast? = some r := by
  induction h with
  | done err => rfl
  | absent j err r t _ _ ih => exact ih
  | invalid j err r t _ _ _ ih => simpa [invokeResultsOf] using ih
  | ok j err r t _ _ _ ih => simpa [invokeResultsOf] using ih
  | fail j err e _ _ => simp [invokeResultsOf]

/-- The rollback loop from index `k - 1` invokes only compensating names of the
steps before index `k`, each one after `IsValid` accepted it. -/
theorem rollbackRun_invoked {σ : Type} (m : Migrator σ) (methods : List String) (k : Nat)
    (err r : Option GoError) (t : List Event) (h : RollbackRun m methods k err r t) :
    ∀ n ∈ invokedOf t,
      (∃ j, j < k ∧ n = getRollbackToMethod (methods.getD j "")) ∧
      ∃ s', (m.MethodInvoker.IsValid s' n).1 = true := by
  induction h with
  | done err => intro n hn; simp [invokedOf] at hn
  | absent j err r t _ _ ih =>
    intro n hn
    obtain ⟨⟨j', hj', h1⟩, h2⟩ := ih n hn
    exact ⟨⟨j', Nat.lt_succ_of_lt hj', h1⟩, h2⟩
  | invalid j err r t _ _ _ ih =>
    intro n hn
    obtain ⟨⟨j', hj', h1⟩, h2⟩ := ih n (by simpa [invokedOf] using hn)
    exact ⟨⟨j', Nat.lt_succ_of_lt hj', h1⟩, h2⟩
  | ok j err r t _ hv _ ih =>
    intro n hn
    simp only [invokedOf, List.mem_cons] at hn
    rcases hn with rfl | hn
    · exact ⟨⟨j, Nat.lt_succ_self j, rfl⟩, hv⟩
    · obtain ⟨⟨j', hj', h1⟩, h2⟩ := ih n hn
      exact ⟨⟨j', Nat.lt_succ_of_lt hj', h1⟩, h2⟩
  | fail j err e _ hv =>
    intro n hn
    simp only [invokedOf, List.mem_cons, List.not_mem_nil, or_false] at hn
    subst hn
    exact ⟨⟨j, Nat.lt_succ_self j, rfl⟩, hv⟩

theorem forwardInvokedOf_isValid_map (names : List String) (b : Bool) (t : List Event) :
    forwardInvokedOf (names.map (fun n => Event.isValid n b) ++ t) = forwardInvokedOf t := by
  induction names with
  | nil => rfl
  | cons n ns ih => simpa [forwardInvokedOf] using ih

theorem forwardInvokedOf_okEvents (names : List String) (t : List Event) :
    forwardInvokedOf (okEvents names ++ t) = names ++ forwardInvokedOf t := by
  induction names with
  | nil => rfl
  | cons n ns ih => simp [okEvents, forwardInvokedOf, ih]

theorem forwardInvokedOf_failEvents (x : String) (e : GoError) (t : List Event) :
    forwardInvokedOf (failEvents x e ++ t) = [x] := by
  simp [failEvents, forwardInvokedOf]

theorem getD_append_left_mem (pre : List String) (rest : List String) (j : Nat)
    (hj : j < pre.length) : (pre ++ rest).getD j "" ∈ pre := by
  have h1 : (pre ++ rest).getD j "" = pre[j] := by
    simp [List.getD_eq_getElem?_getD, List.getElem?_append_left hj,
      List.getElem?_eq_getElem hj]
  rw [h1]
  exact List.getElem_mem hj

/-! ## Trimmed names -/

theorem trimSpace_data (s : String) :
    (TrimSpace s).data = (s.data.dropWhile IsSpace).rdropWhile IsSpace := rfl

theorem trimSpace_head (s : String) (c : Char) (h : (TrimSpace s).data.head? = some c) :
    IsSpace c = false := by
  rw [trimSpace_data] at h
  obtain ⟨rest, hrest⟩ := List.rdropWhile_prefix IsSpace (s.data.dropWhile IsSpace)
  cases hb : (s.data.dropWhile IsSpace).rdropWhile IsSpace with
  | nil => rw [hb] at h; simp at h
  | cons d t =>
    rw [hb] at h hrest
    simp only [List.head?_cons, Option.some.injEq] at h
    subst h
    have := List.head?_dropWhile_not IsSpace s.data
    rw [← hrest] at this
    simpa using this

theorem trimSpace_last (s : String) (c : Char) (h : (TrimSpace s).data.getLast? = some c) :
    IsSpace c = false := by
  rw [trimSpace_data] at h
  have hne : (s.data.dropWhile IsSpace).rdropWhile IsSpace ≠ [] := by
    intro h0; rw [h0] at h; simp at h
  have := List.rdropWhile_last_not (p := IsSpace) (l := s.data.dropWhile IsSpace) hne
  rw [List.getLast?_eq_getLast _ hne] at h
  simp only [Option.some.injEq] at h
  rw [h] at this
  simpa using this

theorem trimSpace_idempotent (s : String) : TrimSpace (TrimSpace s) = TrimSpace s := by
  apply String.ext
  rw [trimSpace_data (TrimSpace s)]
  have hd : (TrimSpace s).data.dropWhile IsSpace = (TrimSpace s).data := by
    cases hb : (TrimSpace s).data with
    | nil => rfl
    | cons d t =>
      have := trimSpace_head s d (by rw [hb]; rfl)
      rw [List.dropWhile_cons_of_neg (by simp [this])]
  rw [hd, trimSpace_data, List.rdropWhile_idempotent]

theorem mem_stepNames (lines : List String) (n : String) (h : n ∈ stepNames lines) :
    n ≠ "" ∧ TrimSpace n = n ∧ ¬ "--".data <+: n.data := by
  simp only [stepNames, List.mem_filter, List.mem_map, decide_eq_true_eq] at h
  obtain ⟨⟨line, _, rfl⟩, h1, h2⟩ := h
  exact ⟨h1, trimSpace_idempotent line, h2⟩

theorem validateNames_ok_valid {σ : Type} (m : Migrator σ) (names : List String) :
    ∀ (methods : List String) (w : World σ) (ms : List String),
    (validateNames m names methods w).1 = .ok ms →
    ∀ n ∈ names, ∃ s', (m.MethodInvoker.IsValid s' n).1 = true := by
  induction names with
  | nil => intro methods w ms _ n hn; simp at hn
  | cons x xs ih =>
    intro methods w ms h n hn
    simp only [validateNames] at h
    split at h
    · cases h
    · rename_i hx
      rcases List.mem_cons.mp hn with rfl | hn
      · exact ⟨w.st, by simpa [callIsValid] using hx⟩
      · exact ih _ _ _ h n hn

theorem getMigrationMethods_valid {σ : Type} (m : Migrator σ) (fs : FileSystem) (f : File)
    (w : World σ) (methods : List String)
    (hok : (getMigrationMethods m fs f w).1 = .ok methods) :
    ∀ n ∈ methods, (∃ s', (m.MethodInvoker.IsValid s' n).1 = true) ∧
      n ≠ "" ∧ TrimSpace n = n ∧ ¬ "--".data <+: n.data := by
  cases hl : getFileLines fs f with
  | error err =>
    unfold getMigrationMethods at hok
    rw [hl] at hok
    cases hok
  | ok lines =>
    have hm := getMigrationMethods_stepNames m fs f w lines methods hl hok
    unfold getMigrationMethods at hok
    rw [hl] at hok
    simp only [getMigrationMethodsLoop_eq_validateNames] at hok
    intro n hn
    rw [hm] at hn
    exact ⟨validateNames_ok_valid m _ _ _ _ hok n hn, mem_stepNames lines n hn⟩

/-- Every run over a validated step list, by cases: all steps succeed; or the
steps split at the first failure, which ends the run when rollback is disabled
and is followed by a run of the rollback loop when it is enabled. -/
theorem Migrate_cases {σ : Type} (m : Migrator σ) (fs : FileSystem) (f : File) (s : σ)
    (methods : List String)
    (hval : (getMigrationMethods m fs f (initial s)).1 = .ok methods) :
    ((Migrate m fs f (initial s)).1 = none ∧
      (Migrate m fs f (initial s)).2.trace
        = methods.map (fun n => Event.isValid n true) ++ okEvents methods) ∨
    (∃ pre x post e R, methods = pre ++ x :: post ∧
      (Migrate m fs f (initial s)).2.trace
        = methods.map (fun n => Event.isValid n true) ++ (okEvents pre ++ failEvents x e) ++ R ∧
      ((m.RollbackOnFailure = false ∧ R = [] ∧ (Migrate m fs f (initial s)).1 = some e) ∨
       (m.RollbackOnFailure = true ∧
        RollbackRun m methods pre.length (some e) (Migrate m fs f (initial s)).1 R ∧
        ∃ s', R = (rollbackLoop m methods pre.length (some e) (initial s')).2.trace))) := by
  rcases Migrate_shape m fs f s methods hval with ⟨s', h⟩ | ⟨pre, x, post, e, s', hsplit, h⟩
  · exact Or.inl (by rw [h]; exact ⟨rfl, rfl⟩)
  · refine Or.inr ⟨pre, x, post, e,
      if m.RollbackOnFailure = false then []
      else (rollbackLoop m methods pre.length (some e) (initial s')).2.trace, hsplit, ?_, ?_⟩
    · rw [h]; split <;> simp [shift, World.after]
    · by_cases hr : m.RollbackOnFailure = false
      · refine Or.inl ⟨hr, by simp [hr], ?_⟩
        rw [h, if_pos hr]
      · refine Or.inr ⟨by simpa using hr, ?_, s', by simp [hr]⟩
        rw [h, if_neg hr, if_neg hr]
        exact rollbackLoop_run m methods pre.length (some e) s'

theorem Migrate_paired {σ : Type} (m : Migrator σ) (fs : FileSystem) (f : File) (s : σ)
    (methods : List String)
    (hval : (getMigrationMethods m fs f (initial s)).1 = .ok methods) :
    Paired (Migrate m fs f (initial s)).2.trace := by
  rcases Migrate_cases m fs f s methods hval with ⟨_, hT⟩ | ⟨pre, x, post, e, R, _, hT, hR⟩
  · rw [hT]
    exact paired_append _ _ (paired_isValid_map _ _) (paired_okEvents _)
  · rw [hT]
    refine paired_append _ _ (paired_append _ _ (paired_isValid_map _ _)
      (paired_append _ _ (paired_okEvents _) (paired_failEvents _ _))) ?_
    rcases hR with ⟨_, rfl, _⟩ | ⟨_, hrun, _⟩
    · exact Paired.nil
    · exact paired_of_rollbackRun m methods _ _ _ _ hrun

/-- A trace without `Invoke` calls and without sends of names meets the three
adjacency conditions for want of anything to check. -/
theorem no_calls_adjacent (t : List Event)
    (h : ∀ ev ∈ t, (∀ n r, ev ≠ Event.invoke n r) ∧ ∀ n, ev ≠ Event.send (Msg.name n)) :
    (∀ (i : Nat) (n : String) (r : Option GoError), t[i]? = some (Event.invoke n r) →
      ∃ k, i = k + 1 ∧ t[k]? = some (Event.send (Msg.name n))) ∧
    (∀ (i : Nat) (n : String), t[i]? = some (Event.send (Msg.name n)) →
      ∃ r, t[i + 1]? = some (Event.invoke n r)) ∧
    (∀ (i : Nat) (n : String) (e : GoError), t[i]? = some (Event.invoke n (some e)) →
      t[i + 1]? = some (Event.send (Msg.error e))) :=
  ⟨fun _ n r hi => absurd rfl ((h _ (List.getElem?_mem hi)).1 n r),
   fun _ n hi => absurd rfl ((h _ (List.getElem?_mem hi)).2 n),
   fun _ n e hi => absurd rfl ((h _ (List.getElem?_mem hi)).1 n (some e))⟩

/-- A run whose validation fails: the error is returned and sent, and nothing is
invoked. -/
theorem Migrate_validation_error {σ : Type} (m : Migrator σ) (fs : FileSystem) (f : File)
    (s : σ) (err : GoError)
    (herr : (getMigrationMethods m fs f (initial s)).1 = .error err) :
    (Migrate m fs f (initial s)).1 = some err ∧
    ∃ V, onlyIsValid V ∧ (Migrate m fs f (initial s)).2.trace = V ++ [Event.send (Msg.error err)] := by
  have hV := getMigrationMethods_onlyIsValid m fs f s
  cases hg : getMigrationMethods m fs f (initial s) with
  | mk res w1 =>
    rw [hg] at hV herr
    simp only at herr
    subst herr
    have hM : Migrate m fs f (initial s) = (some err, send (Msg.error err) w1) := by
      unfold Migrate; rw [hg]
    rw [hM]
    exact ⟨rfl, w1.trace, hV, rfl⟩

/-! ## The later claims -/

/-- C11.  For every source and every catalog whose `IsValid` is a pure predicate
`p` (its answer depends on the name alone and it leaves the catalog unchanged):
when `getMigrationMethods` returns a list without error, every name of the list
satisfies `p`, is not empty, has no white space at either end and does not begin
with `--`; and every name `Migrate` forward-invokes is a name of that list, so
`p` holds of it (as it does of every name `Migrate` invokes at all). -/
theorem validated_step_list_invariant {σ : Type} (m : Migrator σ) (fs : FileSystem)
    (f : File) (s : σ) (methods : List String) (p : String → Bool)
    (hpure : ∀ s' n, m.MethodInvoker.IsValid s' n = (p n, s'))
    (hok : (getMigrationMethods m fs f (initial s)).1 = .ok methods) :
    (∀ n ∈ methods, p n = true ∧ n ≠ "" ∧ TrimSpace n = n ∧
      (∀ c, n.data.head? = some c → IsSpace c = false) ∧
      (∀ c, n.data.getLast? = some c → IsSpace c = false) ∧
      ¬ "--".data <+: n.data) ∧
    (∀ n ∈ forwardInvokedOf (Migrate m fs f (initial s)).2.trace, n ∈ methods ∧ p n = true) ∧
    (∀ n ∈ invokedOf (Migrate m fs f (initial s)).2.trace, p n = true) := by
  have hp : ∀ n, (∃ s', (m.MethodInvoker.IsValid s' n).1 = true) → p n = true := by
    rintro n ⟨s', hs'⟩
    rw [hpure] at hs'
    exact hs'
  have hvalid := getMigrationMethods_valid m fs f (initial s) methods hok
  have hall : ∀ n ∈ methods, p n = true := fun n hn => hp n (hvalid n hn).1
  refine ⟨fun n hn => ?_, ?_, ?_⟩
  · obtain ⟨_, h2, h3, h4⟩ := hvalid n hn
    exact ⟨hall n hn, h2, h3, fun c hc => trimSpace_head n c (by rw [h3]; exact hc),
      fun c hc => trimSpace_last n c (by rw [h3]; exact hc), h4⟩
  · rcases Migrate_cases m fs f s methods hok with ⟨_, hT⟩ | ⟨pre, x, post, e, R, hsplit, hT, _⟩
    · intro n hn
      rw [hT, forwardInvokedOf_isValid_map, ← List.append_nil (okEvents methods),
        forwardInvokedOf_okEvents] at hn
      have hn' : n ∈ methods := by simpa [forwardInvokedOf] using hn
      exact ⟨hn', hall n hn'⟩
    · intro n hn
      rw [hT, List.append_assoc, forwardInvokedOf_isValid_map, List.append_assoc,
        forwardInvokedOf_okEvents, forwardInvokedOf_failEvents] at hn
      have hn' : n ∈ methods := by
        rw [hsplit]
        rcases List.mem_append.mp hn with h | h
        · exact List.mem_append_left _ h
        · exact List.mem_append_right _ (by
            rw [List.mem_singleton.mp h]; exact List.mem_cons_self _ _)
      exact ⟨hn', hall n hn'⟩
  · rcases Migrate_cases m fs f s methods hok with ⟨_, hT⟩ | ⟨pre, x, post, e, R, hsplit, hT, hR⟩
    · intro n hn
      rw [hT] at hn
      simp only [invokedOf_append, invokedOf_okEvents,
        invokedOf_onlyIsValid _ (onlyIsValid_map _ true), List.nil_append] at hn
      exact hall n hn
    · intro n hn
      rw [hT] at hn
      simp only [invokedOf_append, invokedOf_okEvents, failEvents, invokedOf,
        invokedOf_onlyIsValid _ (onlyIsValid_map _ true), List.nil_append,
        List.mem_append, List.mem_singleton] at hn
      rcases hn with (h | h) | h
      · exact hall n (by rw [hsplit]; exact List.mem_append_left _ h)
      · exact hall n (by rw [hsplit, h]; exact List.mem_append_right _ (List.mem_cons_self _ _))
      · rcases hR with ⟨_, rfl, _⟩ | ⟨_, hrun, _⟩
        · simp [invokedOf] at h
        · exact hp n (rollbackRun_invoked m methods _ _ _ _ hrun n h).2

/-- C12.  Every run over a validated step list: the forward `Invoke` calls are a
prefix of the list, one call per position.  Either every step is invoked with
success, or the list splits as `pre ++ x :: post` where the steps of `pre`
succeed and `x` fails: the forward calls are then `pre ++ [x]`, the failing step
is not retried and no step of `post` is forward-invoked, because what follows is
nothing (rollback disabled) or the rollback loop over the indices below
`pre.length`, which invokes only compensating names of steps of `pre`. -/
theorem Migrate_forward_short_circuit {σ : Type} (m : Migrator σ) (fs : FileSystem)
    (f : File) (s : σ) (methods : List String)
    (hval : (getMigrationMethods m fs f (initial s)).1 = .ok methods) :
    forwardInvokedOf (Migrate m fs f (initial s)).2.trace <+: methods ∧
    ((∃ s', Migrate m fs f (initial s) =
        (none, { st := s',
                 trace := methods.map (fun n => Event.isValid n true) ++ okEvents methods }) ∧
        forwardInvokedOf (Migrate m fs f (initial s)).2.trace = methods) ∨
     (∃ pre x post e s', methods = pre ++ x :: post ∧
        forwardInvokedOf (Migrate m fs f (initial s)).2.trace = pre ++ [x] ∧
        Migrate m fs f (initial s) =
          (if m.RollbackOnFailure = false then
            (some e,
              { st := s',
                trace := methods.map (fun n => Event.isValid n true)
                  ++ (okEvents pre ++ failEvents x e) })
          else
            shift (methods.map (fun n => Event.isValid n true)
                ++ (okEvents pre ++ failEvents x e))
              (rollbackLoop m methods pre.length (some e) (initial s'))) ∧
        ∀ n ∈ invokedOf (rollbackLoop m methods pre.length (some e) (initial s')).2.trace,
          ∃ c ∈ pre, n = getRollbackToMethod c)) := by
  rcases Migrate_shape m fs f s methods hval with ⟨s', h⟩ | ⟨pre, x, post, e, s', hsplit, h⟩
  · have hf : forwardInvokedOf (Migrate m fs f (initial s)).2.trace = methods := by
      rw [h]
      simp only
      rw [forwardInvokedOf_isValid_map, ← List.append_nil (okEvents methods),
        forwardInvokedOf_okEvents]
      simp [forwardInvokedOf]
    exact ⟨by rw [hf], Or.inl ⟨s', h, hf⟩⟩
  · have hf : forwardInvokedOf (Migrate m fs f (initial s)).2.trace = pre ++ [x] := by
      rw [h]
      split
      · simp only
        rw [forwardInvokedOf_isValid_map, forwardInvokedOf_okEvents,
          ← List.append_nil (failEvents x e), forwardInvokedOf_failEvents]
      · simp only [shift, World.after]
        rw [List.append_assoc, forwardInvokedOf_isValid_map, List.append_assoc,
          forwardInvokedOf_okEvents, forwardInvokedOf_failEvents]
    refine ⟨?_, Or.inr ⟨pre, x, post, e, s', hsplit, hf, h, ?_⟩⟩
    · rw [hf, hsplit]
      exact ⟨post, by simp⟩
    · intro n hn
      obtain ⟨⟨j, hj, hjn⟩, _⟩ := rollbackRun_invoked m methods _ _ _ _
        (rollbackLoop_run m methods pre.length (some e) s') n hn
      refine ⟨methods.getD j "", ?_, hjn⟩
      rw [hsplit]
      exact getD_append_left_mem pre (x :: post) j hj

/-- C13.  Every run of `Migrate`.  When validation fails with `err`, `err` is
returned and is the one message of the channel.  When it succeeds, the channel
is, for each `Invoke` call in order, the name invoked, followed by the error of
the call when it failed, and nothing else.  In both cases the names sent are the
names invoked, in the same order; in the trace every `Invoke` call comes right
after the send of its name, every send of a name is followed at once by the
`Invoke` call of that name, and every failing `Invoke` call is followed at once
by the send of its error. -/
theorem Migrate_channel_mirrors_invocations {σ : Type} (m : Migrator σ) (fs : FileSystem)
    (f : File) (s : σ) :
    (∀ err, (getMigrationMethods m fs f (initial s)).1 = .error err →
      (Migrate m fs f (initial s)).1 = some err ∧
      pipeOf (Migrate m fs f (initial s)).2.trace = [Msg.error err]) ∧
    (∀ methods, (getMigrationMethods m fs f (initial s)).1 = .ok methods →
      pipeOf (Migrate m fs f (initial s)).2.trace
        = mirrorOf (Migrate m fs f (initial s)).2.trace) ∧
    namesOf (pipeOf (Migrate m fs f (initial s)).2.trace)
      = invokedOf (Migrate m fs f (initial s)).2.trace ∧
    (∀ (i : Nat) (n : String) (r : Option GoError),
      (Migrate m fs f (initial s)).2.trace[i]? = some (Event.invoke n r) →
      ∃ k, i = k + 1 ∧
        (Migrate m fs f (initial s)).2.trace[k]? = some (Event.send (Msg.name n))) ∧
    (∀ (i : Nat) (n : String),
      (Migrate m fs f (initial s)).2.trace[i]? = some (Event.send (Msg.name n)) →
      ∃ r, (Migrate m fs f (initial s)).2.trace[i + 1]? = some (Event.invoke n r)) ∧
    (∀ (i : Nat) (n : String) (e : GoError),
      (Migrate m fs f (initial s)).2.trace[i]? = some (Event.invoke n (some e)) →
      (Migrate m fs f (initial s)).2.trace[i + 1]? = some (Event.send (Msg.error e))) := by
  have herrPipe : ∀ err, (getMigrationMethods m fs f (initial s)).1 = .error err →
      (Migrate m fs f (initial s)).1 = some err ∧
      pipeOf (Migrate m fs f (initial s)).2.trace = [Msg.error err] := by
    intro err herr
    obtain ⟨h1, V, hV, hT⟩ := Migrate_validation_error m fs f s err herr
    refine ⟨h1, ?_⟩
    rw [hT, pipeOf_append, pipeOf_onlyIsValid V hV]
    rfl
  have hokPipe : ∀ methods, (getMigrationMethods m fs f (initial s)).1 = .ok methods →
      pipeOf (Migrate m fs f (initial s)).2.trace
        = mirrorOf (Migrate m fs f (initial s)).2.trace :=
    fun methods hval => pipeOf_eq_mirrorOf _ (Migrate_paired m fs f s methods hval)
  refine ⟨herrPipe, hokPipe, ?_⟩
  cases hres : (getMigrationMethods m fs f (initial s)).1 with
  | error err =>
    obtain ⟨_, V, hV, hT⟩ := Migrate_validation_error m fs f s err hres
    have hno : ∀ ev ∈ V ++ [Event.send (Msg.error err)],
        (∀ n r, ev ≠ Event.invoke n r) ∧ ∀ n, ev ≠ Event.send (Msg.name n) := by
      intro ev hev
      rcases List.mem_append.mp hev with h | h
      · obtain ⟨n', b, rfl⟩ := hV ev h
        exact ⟨by simp, by simp⟩
      · rw [List.mem_singleton.mp h]
        exact ⟨by simp, by simp⟩
    rw [hT]
    refine ⟨?_, no_calls_adjacent _ hno⟩
    rw [pipeOf_append, invokedOf_append, pipeOf_onlyIsValid V hV, invokedOf_onlyIsValid V hV]
    rfl
  | ok methods =>
    have hP := Migrate_paired m fs f s methods hres
    refine ⟨?_, paired_invoke_after_send _ hP, paired_send_before_invoke _ hP,
      paired_error_after_fail _ hP⟩
    rw [pipeOf_eq_mirrorOf _ hP, namesOf_mirrorOf]

/-- C17.  Every run of `Migrate` in which at least one `Invoke` call is made
(validation has then succeeded): the value returned is the result of the last
`Invoke` call of the run, forward or compensating.  In particular, when the
calls are `k` successes followed by one failure `e` and nothing more (no
compensating step is invoked), `e` is returned. -/
theorem Migrate_returns_last_invoke_result {σ : Type} (m : Migrator σ) (fs : FileSystem)
    (f : File) (s : σ)
    (hinv : invokeResultsOf (Migrate m fs f (initial s)).2.trace ≠ []) :
    (invokeResultsOf (Migrate m fs f (initial s)).2.trace).getLast?
      = some (Migrate m fs f (initial s)).1 ∧
    (∀ k e, invokeResultsOf (Migrate m fs f (initial s)).2.trace
        = List.replicate k none ++ [some e] →
      (Migrate m fs f (initial s)).1 = some e) := by
  have hlast : (invokeResultsOf (Migrate m fs f (initial s)).2.trace).getLast?
      = some (Migrate m fs f (initial s)).1 := by
    cases hres : (getMigrationMethods m fs f (initial s)).1 with
    | error err =>
      exfalso
      obtain ⟨_, V, hV, hT⟩ := Migrate_validation_error m fs f s err hres
      apply hinv
      rw [hT, invokeResultsOf_append, invokeResultsOf_onlyIsValid V hV]
      rfl
    | ok methods =>
      rcases Migrate_cases m fs f s methods hres with
        ⟨hr, hT⟩ | ⟨pre, x, post, e, R, _, hT, hR⟩
      · rw [hT] at hinv ⊢
        rw [invokeResultsOf_append, invokeResultsOf_onlyIsValid _ (onlyIsValid_map _ true),
          invokeResultsOf_okEvents, List.nil_append] at hinv ⊢
        rw [hr, List.getLast?_replicate, if_neg]
        intro h0
        rw [h0] at hinv
        exact hinv rfl
      · have hsh : invokeResultsOf (Migrate m fs f (initial s)).2.trace
            = List.replicate pre.length none ++ (some e :: invokeResultsOf R) := by
          rw [hT]
          simp [invokeResultsOf_append, invokeResultsOf_okEvents,
            invokeResultsOf_onlyIsValid _ (onlyIsValid_map _ true), failEvents, invokeResultsOf]
        rw [hsh, List.getLast?_append]
        rcases hR with ⟨_, rfl, hr⟩ | ⟨_, hrun, _⟩
        · rw [hr]; rfl
        · rw [rollbackRun_result m methods _ _ _ _ hrun]; rfl
  refine ⟨hlast, fun k e hk => ?_⟩
  rw [hk, List.getLast?_concat] at hlast
  exact (Option.some.inj hlast).symm

/-! ## The later claims at concrete inputs -/

/-- C11 at the source `a_up`, `b_up`, `c_up` and the fixture catalog, whose
`IsValid` is membership in the list of known operations. -/
theorem validated_step_list_invariant_witness :
    (getMigrationMethods (plainMigrator []) noFiles abcFile (initial ())).1
      = .ok ["a_up", "b_up", "c_up"] ∧
    ((∀ n ∈ ["a_up", "b_up", "c_up"], decide (n ∈ abcKnown) = true ∧ n ≠ "" ∧ TrimSpace n = n ∧
        (∀ c, n.data.head? = some c → IsSpace c = false) ∧
        (∀ c, n.data.getLast? = some c → IsSpace c = false) ∧
        ¬ "--".data <+: n.data) ∧
     (∀ n ∈ forwardInvokedOf (Migrate (plainMigrator []) noFiles abcFile (initial ())).2.trace,
        n ∈ ["a_up", "b_up", "c_up"] ∧ decide (n ∈ abcKnown) = true) ∧
     (∀ n ∈ invokedOf (Migrate (plainMigrator []) noFiles abcFile (initial ())).2.trace,
        decide (n ∈ abcKnown) = true)) :=
  ⟨rfl,
   validated_step_list_invariant (plainMigrator []) noFiles abcFile () ["a_up", "b_up", "c_up"]
    (fun n => decide (n ∈ abcKnown)) (fun s' n => by cases s'; rfl) rfl⟩

/-- C12 at the source `a_up`, `b_up`, `c_up` with `b_up` failing and rollback
enabled: the forward calls are `a_up`, `b_up`, and `c_up` is never invoked. -/
theorem Migrate_forward_short_circuit_witness :
    forwardInvokedOf (Migrate (rollbackMigrator ["b_up"]) noFiles abcFile (initial ())).2.trace
      = ["a_up", "b_up"] ∧
    invokedOf (Migrate (rollbackMigrator ["b_up"]) noFiles abcFile (initial ())).2.trace
      = ["a_up", "b_up", "a_down"] ∧
    forwardInvokedOf (Migrate (rollbackMigrator ["b_up"]) noFiles abcFile (initial ())).2.trace
      <+: ["a_up", "b_up", "c_up"] :=
  ⟨by decide, by decide,
   (Migrate_forward_short_circuit (rollbackMigrator ["b_up"]) noFiles abcFile ()
    ["a_up", "b_up", "c_up"] rfl).1⟩

/-- C17 at the source `a_up`, `b_up`, `c_up` with `c_up` failing and rollback
enabled: the last `Invoke` call is the successful `a_down`, and nil is
returned. -/
theorem Migrate_returns_last_invoke_result_witness :
    invokeResultsOf (Migrate (rollbackMigrator ["c_up"]) noFiles abcFile (initial ())).2.trace
      = [none, none, some (GoError.other "c_up failed"), none, none] ∧
    (Migrate (rollbackMigrator ["c_up"]) noFiles abcFile (initial ())).1 = none ∧
    (invokeResultsOf
        (Migrate (rollbackMigrator ["c_up"]) noFiles abcFile (initial ())).2.trace).getLast?
      = some (Migrate (rollbackMigrator ["c_up"]) noFiles abcFile (initial ())).1 :=
  ⟨by decide, by decide,
   (Migrate_returns_last_invoke_result (rollbackMigrator ["c_up"]) noFiles abcFile ()
    (by decide)).1⟩

/-! ## Skipped steps in rollback -/

theorem take_succ_reverse (methods : List String) (j : Nat) (hj : j < methods.length) :
    (methods.take (j + 1)).reverse = methods.getD j "" :: (methods.take j).reverse ∧
    methods.getD j "" ∈ methods.take (j + 1) ∧
    ∀ n ∈ methods.take j, n ∈ methods.take (j + 1) := by
  have hget : methods.getD j "" = methods[j] := by
    simp [List.getD_eq_getElem?_getD, List.getElem?_eq_getElem hj]
  have htake : methods.take (j + 1) = methods.take j ++ [methods[j]] := by
    rw [List.take_succ, List.getElem?_eq_getElem hj]; rfl
  rw [hget, htake]
  refine ⟨by rw [List.reverse_append]; rfl,
    List.mem_append_right _ (List.mem_singleton_self _),
    fun n hn => List.mem_append_left _ hn⟩

theorem compensableNames_cons (valid : String → Bool) (a : String) (l : List String) :
    compensableNames valid (a :: l) =
      if getRollbackToMethod a ≠ "" ∧ valid (getRollbackToMethod a) = true then
        getRollbackToMethod a :: compensableNames valid l
      else compensableNames valid l := by
  simp only [compensableNames, List.map_cons, List.filter_cons, Bool.and_eq_true,
    decide_eq_true_eq]

theorem presentCompensations_cons (a : String) (l : List String) :
    presentCompensations (a :: l) =
      if getRollbackToMethod a ≠ "" then getRollbackToMethod a :: presentCompensations l
      else presentCompensations l := by
  simp only [presentCompensations, List.map_cons, List.filter_cons, decide_eq_true_eq]

/-- A run of the rollback loop over the first `k` steps, when the answer of
`IsValid` on their compensating names is given by `valid`: the names invoked are
an initial part of the compensable names of these steps, last step first, and
when every invocation succeeds they are all of them, the channel receives
exactly these names, and `IsValid` is asked about exactly the compensating names
that exist. -/
theorem rollbackRun_skips {σ : Type} (m : Migrator σ) (methods : List String)
    (valid : String → Bool) (k : Nat) (err r : Option GoError) (t : List Event)
    (h : RollbackRun m methods k err r t) :
    k ≤ methods.length →
    (∀ n ∈ methods.take k, ∀ s',
      (m.MethodInvoker.IsValid s' (getRollbackToMethod n)).1 = valid (getRollbackToMethod n)) →
    invokedOf t <+: compensableNames valid (methods.take k).reverse ∧
    ((∀ r' ∈ invokeResultsOf t, r' = none) →
      invokedOf t = compensableNames valid (methods.take k).reverse ∧
      pipeOf t = (compensableNames valid (methods.take k).reverse).map Msg.name ∧
      isValidCallsOf t = presentCompensations (methods.take k).reverse) := by
  induction h with
  | done err =>
    intro _ _
    simp [invokedOf, pipeOf, isValidCallsOf, compensableNames, presentCompensations]
  | absent j err r t hc _ ih =>
    intro hk hv
    obtain ⟨hrev, _, hsub⟩ := take_succ_reverse methods j hk
    obtain ⟨ih1, ih2⟩ := ih (Nat.le_of_lt hk) (fun n hn => hv n (hsub n hn))
    rw [hrev, compensableNames_cons, presentCompensations_cons, if_neg (fun h => h.1 hc),
      if_neg (fun h => h hc)]
    exact ⟨ih1, ih2⟩
  | invalid j err r t hc hrej _ ih =>
    intro hk hv
    obtain ⟨hrev, hmem, hsub⟩ := take_succ_reverse methods j hk
    obtain ⟨ih1, ih2⟩ := ih (Nat.le_of_lt hk) (fun n hn => hv n (hsub n hn))
    obtain ⟨s', hs'⟩ := hrej
    have hfalse : valid (getRollbackToMethod (methods.getD j "")) = false := by
      rw [← hv _ hmem s']; exact hs'
    rw [hrev, compensableNames_cons, presentCompensations_cons,
      if_neg (by rw [hfalse]; simp), if_pos hc]
    refine ⟨by simpa [invokedOf] using ih1, fun hall => ?_⟩
    obtain ⟨h1, h2, h3⟩ := ih2 (by simpa [invokeResultsOf] using hall)
    exact ⟨by simpa [invokedOf] using h1, by simpa [pipeOf] using h2,
      by simp [isValidCallsOf, h3]⟩
  | ok j err r t hc hacc _ ih =>
    intro hk hv
    obtain ⟨hrev, hmem, hsub⟩ := take_succ_reverse methods j hk
    obtain ⟨ih1, ih2⟩ := ih (Nat.le_of_lt hk) (fun n hn => hv n (hsub n hn))
    obtain ⟨s', hs'⟩ := hacc
    have htrue : valid (getRollbackToMethod (methods.getD j "")) = true := by
      rw [← hv _ hmem s']; exact hs'
    rw [hrev, compensableNames_cons, presentCompensations_cons, if_pos ⟨hc, htrue⟩,
      if_pos hc]
    refine ⟨by simpa [invokedOf] using ih1, fun hall => ?_⟩
    obtain ⟨h1, h2, h3⟩ := ih2 (fun r' hr' => hall r' (by simp [invokeResultsOf, hr']))
    exact ⟨by simp [invokedOf, h1], by simp [pipeOf, h2], by simp [isValidCallsOf, h3]⟩
  | fail j err e hc hacc =>
    intro hk hv
    obtain ⟨hrev, hmem, _⟩ := take_succ_reverse methods j hk
    obtain ⟨s', hs'⟩ := hacc
    have htrue : valid (getRollbackToMethod (methods.getD j "")) = true := by
      rw [← hv _ hmem s']; exact hs'
    rw [hrev, compensableNames_cons, if_pos ⟨hc, htrue⟩]
    refine ⟨by simp [invokedOf], fun hall => ?_⟩
    have := hall (some e) (by simp [invokeResultsOf])
    cases this

/-- C8.  `Migrate` with rollback enabled over the validated step list
`pre ++ x :: post`, when the steps of `pre` succeed, `x` fails with `e`, and the
answer of `IsValid` on the compensating names of `pre` is given by `valid`.  The
steps of `pre` whose compensating name is absent (the empty string) or rejected
by `IsValid` are skipped: the names invoked after `x` are an initial part of the
compensable names of `pre`, last step first, and so are the names sent.  The
skip does not stop rollback: when every compensating invocation succeeds, every
compensable name is invoked, earlier steps included, the channel receives
exactly the names of steps `0..i`, the error `e` and these compensating names,
and `IsValid` is asked, after validation, about exactly the compensating names
that exist. -/
theorem Migrate_rollback_skips {σ : Type} (m : Migrator σ) (fs : FileSystem) (f : File)
    (s : σ) (pre : List String) (x : String) (post : List String) (e : GoError)
    (valid : String → Bool)
    (hroll : m.RollbackOnFailure = true)
    (hval : (getMigrationMethods m fs f (initial s)).1 = .ok (pre ++ x :: post))
    (hres : List.replicate pre.length none ++ [some e] <+:
      invokeResultsOf (Migrate m fs f (initial s)).2.trace)
    (hvalid : ∀ n ∈ pre, ∀ s',
      (m.MethodInvoker.IsValid s' (getRollbackToMethod n)).1 = valid (getRollbackToMethod n)) :
    (∃ done, done <+: compensableNames valid pre.reverse ∧
      invokedOf (Migrate m fs f (initial s)).2.trace = pre ++ [x] ++ done ∧
      namesOf (pipeOf (Migrate m fs f (initial s)).2.trace) = pre ++ [x] ++ done) ∧
    ((∀ r ∈ (invokeResultsOf (Migrate m fs f (initial s)).2.trace).drop (pre.length + 1),
        r = none) →
      invokedOf (Migrate m fs f (initial s)).2.trace
        = pre ++ [x] ++ compensableNames valid pre.reverse ∧
      pipeOf (Migrate m fs f (initial s)).2.trace
        = (pre ++ [x]).map Msg.name ++ Msg.error e ::
            (compensableNames valid pre.reverse).map Msg.name ∧
      isValidCallsOf (Migrate m fs f (initial s)).2.trace
        = (pre ++ x :: post) ++ presentCompensations pre.reverse) := by
  obtain ⟨s', h⟩ := Migrate_first_failure m fs f s pre x post e hval hres
  rw [if_neg (by simp [hroll])] at h
  have htake : (pre ++ x :: post).take pre.length = pre := by simp
  have hrun := rollbackLoop_run m (pre ++ x :: post) pre.length (some e) s'
  obtain ⟨hpre, hall⟩ := rollbackRun_skips m (pre ++ x :: post) valid _ _ _ _ hrun
    (by simp) (by rw [htake]; exact hvalid)
  rw [htake] at hpre hall
  have hnames : namesOf (pipeOf (Migrate m fs f (initial s)).2.trace)
      = invokedOf (Migrate m fs f (initial s)).2.trace := by
    rw [pipeOf_eq_mirrorOf _ (Migrate_paired m fs f s _ hval), namesOf_mirrorOf]
  have hinvoked : invokedOf (Migrate m fs f (initial s)).2.trace = pre ++ [x] ++
      invokedOf (rollbackLoop m (pre ++ x :: post) pre.length (some e) (initial s')).2.trace := by
    rw [h]
    simp [shift, World.after, invokedOf_append, invokedOf_okEvents, failEvents, invokedOf,
      invokedOf_onlyIsValid _ (onlyIsValid_map _ true)]
  refine ⟨⟨_, hpre, hinvoked, by rw [hnames, hinvoked]⟩, fun hlater => ?_⟩
  have hdrop : (invokeResultsOf (Migrate m fs f (initial s)).2.trace).drop (pre.length + 1)
      = invokeResultsOf
          (rollbackLoop m (pre ++ x :: post) pre.length (some e) (initial s')).2.trace := by
    rw [h]
    simp only [shift, World.after, invokeResultsOf_append, invokeResultsOf_okEvents,
      invokeResultsOf_onlyIsValid _ (onlyIsValid_map _ true), failEvents, invokeResultsOf,
      List.nil_append]
    apply List.drop_left'
    simp
  rw [hdrop] at hlater
  obtain ⟨h1, h2, h3⟩ := hall hlater
  refine ⟨by rw [hinvoked, h1], ?_, ?_⟩
  · rw [h]
    simp only [shift, World.after, pipeOf_append, h2, pipeOf_okEvents, failEvents, pipeOf,
      pipeOf_onlyIsValid _ (onlyIsValid_map _ true)]
    simp
  · rw [h]
    simp only [shift, World.after, isValidCallsOf_append, h3, isValidCallsOf_okEvents,
      isValidCallsOf_map, failEvents, isValidCallsOf, List.append_nil]

/-- C8 at the source `a_up`, `plain`, `b_up`, `c_up`, `d_up` with `d_up`
failing: rollback invokes `c_down`, skips `b_up` (its compensation `b_down` is
rejected by `IsValid`), skips `plain` (no compensating name, `IsValid` is not
asked) and goes on to invoke `a_down`. -/
theorem Migrate_rollback_skips_witness :
    compensableNames (fun n => decide (n ∈ skipKnown)) ["a_up", "plain", "b_up", "c_up"].reverse
      = ["c_down", "a_down"] ∧
    presentCompensations ["a_up", "plain", "b_up", "c_up"].reverse
      = ["c_down", "b_down", "a_down"] ∧
    pipeOf (Migrate (skipMigrator ["d_up"]) noFiles skipFile (initial ())).2.trace
      = [Msg.name "a_up", Msg.name "plain", Msg.name "b_up", Msg.name "c_up", Msg.name "d_up",
         Msg.error (GoError.other "d_up failed"), Msg.name "c_down", Msg.name "a_down"] ∧
    (invokedOf (Migrate (skipMigrator ["d_up"]) noFiles skipFile (initial ())).2.trace
        = ["a_up", "plain", "b_up", "c_up"] ++ ["d_up"] ++
          compensableNames (fun n => decide (n ∈ skipKnown))
            ["a_up", "plain", "b_up", "c_up"].reverse ∧
     pipeOf (Migrate (skipMigrator ["d_up"]) noFiles skipFile (initial ())).2.trace
        = (["a_up", "plain", "b_up", "c_up"] ++ ["d_up"]).map Msg.name ++
          Msg.error (GoError.other "d_up failed") ::
            (compensableNames (fun n => decide (n ∈ skipKnown))
              ["a_up", "plain", "b_up", "c_up"].reverse).map Msg.name ∧
     isValidCallsOf (Migrate (skipMigrator ["d_up"]) noFiles skipFile (initial ())).2.trace
        = (["a_up", "plain", "b_up", "c_up"] ++ "d_up" :: []) ++
          presentCompensations ["a_up", "plain", "b_up", "c_up"].reverse) :=
  ⟨by decide, by decide, by decide,
   (Migrate_rollback_skips (skipMigrator ["d_up"]) noFiles skipFile ()
    ["a_up", "plain", "b_up", "c_up"] "d_up" [] (GoError.other "d_up failed")
    (fun n => decide (n ∈ skipKnown)) rfl rfl ⟨[none, none], by decide⟩
    (fun n _ s' => by cases s'; rfl)).2 (by decide)⟩

end Gomethods
